import Mathlib

/-!
# Verification of the `large_nbt_fixer` NBT decoder and patcher

Shallow embedding of `src/main.rs`: the span-tracking NBT reader
(`NBTReader`), the ranking of inventory items by size, the byte-span
deletion, and the map indexing performed in `main`.

Modelling conventions:
* The byte buffer is a `List Nat` (each entry one byte); the `Cursor`
  position is threaded explicitly as a `Nat`.
* Fallible reads return `Except Err (α × Nat)` (value and new position),
  mirroring `anyhow::Result`.
* A Rust panic (from `unwrap()`, `unreachable!()`, out-of-bounds slice
  indexing, or `HashMap` `Index` on an absent key) is *not* an error
  result surfaced to a caller; it aborts the process.  Panics are
  modelled by the distinguished constructor `Err.abort` carrying the
  panic site, so theorems can tell "returned an error result" apart
  from "panicked".
* Recursion in `read_value`/`read_compound` is indexed by explicit fuel;
  `Err.fuelOut` is a model artifact that never occurs for sufficiently
  large fuel and appears in no claim.
* `f32`/`f64` payloads are stored as their raw big-endian bit patterns
  (the Rust code never computes with them, it only stores what it read).
* Rust's `HashMap<String, NBTValue>` is modelled as an association list
  with last-write-wins insertion; strings are their UTF-8 byte lists.
-/

/-- Rust panic sites in `main.rs`, modelled as process aborts. -/
inductive AbortKind : Type where
  /-- `Self::READ_FNS[type_id]` with `type_id ≥ 13` (slice index out of bounds). -/
  | indexOutOfBounds
  /-- `read_zero`: `unreachable!("Tried to read value with type id 0")`. -/
  | unreachableZero
  /-- `self.buffer.read_i8().unwrap()` in `read_compound` at end of buffer. -/
  | unwrapNone
  /-- `HashMap` `Index` (`map[key]`) on an absent key: panic "no entry found for key". -/
  | noEntryFound
deriving DecidableEq

/-- Failure modes of the decoder and navigator. -/
inductive Err : Type where
  /-- `std::io::ErrorKind::UnexpectedEof` from a fixed-width or length-prefixed read. -/
  | unexpectedEnd
  /-- `FromUtf8Error`: length-prefixed text is not valid UTF-8. -/
  | invalidEncoding
  /-- Model artifact: recursion fuel exhausted (never an actual program outcome). -/
  | fuelOut
  /-- A Rust panic; the process aborts, no error result reaches the caller. -/
  | abort (k : AbortKind)
deriving DecidableEq

/-- Result of a read: either an error or a value paired with the new cursor position. -/
abbrev DecodeRes (α : Type) : Type := Except Err (α × Nat)

/-- `Read::read_exact` on a `Cursor`: yield `n` bytes starting at `pos`,
or `UnexpectedEof` if the buffer is exhausted before the read completes. -/
def readExact (n : Nat) (buf : List Nat) (pos : Nat) : DecodeRes (List Nat) :=
  if pos + n ≤ buf.length then .ok ((buf.drop pos).take n, pos + n)
  else .error .unexpectedEnd

/-- Big-endian value of a byte list (first byte most significant),
as produced by `byteorder::BigEndian`. -/
def beVal (bs : List Nat) : Nat := bs.foldl (fun acc b => acc * 256 + b) 0

/-- Read `w` bytes and assemble them big-endian. -/
def readBE (w : Nat) (buf : List Nat) (pos : Nat) : DecodeRes Nat :=
  match readExact w buf pos with
  | .ok (bs, p) => .ok (beVal bs, p)
  | .error e => .error e

/-- Two's-complement interpretation of a `bits`-wide unsigned value. -/
def toSigned (bits : Nat) (v : Nat) : Int :=
  if v < 2 ^ (bits - 1) then (v : Int) else (v : Int) - 2 ^ bits

/-- Rust `as usize` on a signed value: sign-extend and reinterpret in 64 bits. -/
def usizeCast (x : Int) : Nat := (x % (2 : Int) ^ 64).toNat

/-- `read_iN::<BigEndian>()`: `w` bytes, big-endian, two's complement of width `bits`. -/
def readIntBE (w bits : Nat) (buf : List Nat) (pos : Nat) : DecodeRes Int :=
  match readBE w buf pos with
  | .ok (v, p) => .ok (toSigned bits v, p)
  | .error e => .error e

/-- `read_i8()`. -/
def readI8 : List Nat → Nat → DecodeRes Int := readIntBE 1 8
/-- `read_i16::<BigEndian>()`. -/
def readI16 : List Nat → Nat → DecodeRes Int := readIntBE 2 16
/-- `read_i32::<BigEndian>()`. -/
def readI32 : List Nat → Nat → DecodeRes Int := readIntBE 4 32
/-- `read_i64::<BigEndian>()`. -/
def readI64 : List Nat → Nat → DecodeRes Int := readIntBE 8 64

/-- Is `b` a UTF-8 continuation byte (`0x80..=0xBF`)? -/
def isCont (b : Nat) : Bool := 128 ≤ b && b ≤ 191

/-- UTF-8 validity of a byte sequence, as checked by `String::from_utf8`
(rejecting overlong forms, surrogates and values above `U+10FFFF`). -/
def validUtf8 : List Nat → Bool
  | [] => true
  | b :: rest =>
    if b ≤ 127 then validUtf8 rest
    else if 194 ≤ b && b ≤ 223 then
      match rest with
      | c :: rest2 => isCont c && validUtf8 rest2
      | [] => false
    else if b = 224 then
      match rest with
      | c1 :: c2 :: rest2 => (160 ≤ c1 && c1 ≤ 191) && isCont c2 && validUtf8 rest2
      | _ => false
    else if 225 ≤ b && b ≤ 236 then
      match rest with
      | c1 :: c2 :: rest2 => isCont c1 && isCont c2 && validUtf8 rest2
      | _ => false
    else if b = 237 then
      match rest with
      | c1 :: c2 :: rest2 => (128 ≤ c1 && c1 ≤ 159) && isCont c2 && validUtf8 rest2
      | _ => false
    else if 238 ≤ b && b ≤ 239 then
      match rest with
      | c1 :: c2 :: rest2 => isCont c1 && isCont c2 && validUtf8 rest2
      | _ => false
    else if b = 240 then
      match rest with
      | c1 :: c2 :: c3 :: rest2 => (144 ≤ c1 && c1 ≤ 191) && isCont c2 && isCont c3 && validUtf8 rest2
      | _ => false
    else if 241 ≤ b && b ≤ 243 then
      match rest with
      | c1 :: c2 :: c3 :: rest2 => isCont c1 && isCont c2 && isCont c3 && validUtf8 rest2
      | _ => false
    else if b = 244 then
      match rest with
      | c1 :: c2 :: c3 :: rest2 => (128 ≤ c1 && c1 ≤ 143) && isCont c2 && isCont c3 && validUtf8 rest2
      | _ => false
    else false

mutual
/-- `enum ValueType` from `main.rs`.  Floats carry raw bit patterns;
strings carry UTF-8 byte lists; `Compound` is the `HashMap` as an
association list. -/
inductive ValueType : Type where
  | Byte : Int → ValueType
  | Short : Int → ValueType
  | Int : Int → ValueType
  | Long : Int → ValueType
  | Float : Nat → ValueType
  | Double : Nat → ValueType
  | ByteArray : List Int → ValueType
  | String : List Nat → ValueType
  | List : List NBTValue → ValueType
  | Compound : List (List Nat × NBTValue) → ValueType
  | IntArray : List Int → ValueType
  | LongArray : List Int → ValueType

/-- `struct NBTValue { start, end, ty }`: a decoded tag with its
half-open byte span `[start, end)` in the source buffer
(`end` is a Lean keyword, hence `endPos`). -/
inductive NBTValue : Type where
  | mk : Nat → Nat → ValueType → NBTValue
end

/-- Field `start` of `NBTValue`. -/
def NBTValue.start : NBTValue → Nat
  | .mk s _ _ => s

/-- Field `end` of `NBTValue`. -/
def NBTValue.endPos : NBTValue → Nat
  | .mk _ e _ => e

/-- Field `ty` of `NBTValue`. -/
def NBTValue.ty : NBTValue → ValueType
  | .mk _ _ t => t

/-- `NBTValue::size`: `self.end - self.start`. -/
def NBTValue.size (v : NBTValue) : Nat := v.endPos - v.start

/-- The tag-kind id of a decoded value: its index in `READ_FNS` (1..12). -/
def tagOf : ValueType → Nat
  | .Byte _ => 1
  | .Short _ => 2
  | .Int _ => 3
  | .Long _ => 4
  | .Float _ => 5
  | .Double _ => 6
  | .ByteArray _ => 7
  | .String _ => 8
  | .List _ => 9
  | .Compound _ => 10
  | .IntArray _ => 11
  | .LongArray _ => 12

/-- `HashMap::insert`: last write wins. -/
def hmInsert (m : List (List Nat × NBTValue)) (k : List Nat) (v : NBTValue) :
    List (List Nat × NBTValue) :=
  match m with
  | [] => [(k, v)]
  | (k', v') :: rest => if k' = k then (k, v) :: rest else (k', v') :: hmInsert rest k v

/-- `HashMap::get`-style lookup. -/
def hmGet (m : List (List Nat × NBTValue)) (k : List Nat) : Option NBTValue :=
  match m with
  | [] => none
  | (k', v') :: rest => if k' = k then some v' else hmGet rest k

/-- `HashMap` `Index` (`map[key]`), as used by `main` (`root[""]`,
`compound["Inventory"]`): panics with "no entry found for key" on an
absent key; it does not return an error result. -/
def hmIndex (m : List (List Nat × NBTValue)) (k : List Nat) : Except Err NBTValue :=
  match hmGet m k with
  | some v => .ok v
  | none => .error (.abort .noEntryFound)

/-- `read_byte`. -/
def read_byte (buf : List Nat) (pos : Nat) : DecodeRes ValueType :=
  match readI8 buf pos with
  | .ok (x, p) => .ok (.Byte x, p)
  | .error e => .error e

/-- `read_short`. -/
def read_short (buf : List Nat) (pos : Nat) : DecodeRes ValueType :=
  match readI16 buf pos with
  | .ok (x, p) => .ok (.Short x, p)
  | .error e => .error e

/-- `read_int`. -/
def read_int (buf : List Nat) (pos : Nat) : DecodeRes ValueType :=
  match readI32 buf pos with
  | .ok (x, p) => .ok (.Int x, p)
  | .error e => .error e

/-- `read_long`. -/
def read_long (buf : List Nat) (pos : Nat) : DecodeRes ValueType :=
  match readI64 buf pos with
  | .ok (x, p) => .ok (.Long x, p)
  | .error e => .error e

/-- `read_float` (payload kept as the raw 4-byte big-endian bit pattern). -/
def read_float (buf : List Nat) (pos : Nat) : DecodeRes ValueType :=
  match readBE 4 buf pos with
  | .ok (x, p) => .ok (.Float x, p)
  | .error e => .error e

/-- `read_double` (payload kept as the raw 8-byte big-endian bit pattern). -/
def read_double (buf : List Nat) (pos : Nat) : DecodeRes ValueType :=
  match readBE 8 buf pos with
  | .ok (x, p) => .ok (.Double x, p)
  | .error e => .error e

/-- The `for _ in 0..length` element loops of the three array readers:
read `cnt` elements with the element reader `rd`.  (`0..length` over an
`i32` iterates `length.toNat` times: zero times when `length` is
negative.) -/
def read_elems (rd : List Nat → Nat → DecodeRes Int) :
    Nat → List Nat → Nat → DecodeRes (List Int)
  | 0, _, pos => .ok ([], pos)
  | cnt + 1, buf, pos =>
    match rd buf pos with
    | .error e => .error e
    | .ok (x, p1) =>
      match read_elems rd cnt buf p1 with
      | .error e => .error e
      | .ok (xs, p2) => .ok (x :: xs, p2)

/-- `read_byte_array`: `i32` count then that many `i8` elements
(a negative count iterates zero times). -/
def read_byte_array (buf : List Nat) (pos : Nat) : DecodeRes ValueType :=
  match readI32 buf pos with
  | .error e => .error e
  | .ok (len, p1) =>
    match read_elems readI8 len.toNat buf p1 with
    | .error e => .error e
    | .ok (xs, p2) => .ok (.ByteArray xs, p2)

/-- `read_int_array`. -/
def read_int_array (buf : List Nat) (pos : Nat) : DecodeRes ValueType :=
  match readI32 buf pos with
  | .error e => .error e
  | .ok (len, p1) =>
    match read_elems readI32 len.toNat buf p1 with
    | .error e => .error e
    | .ok (xs, p2) => .ok (.IntArray xs, p2)

/-- `read_long_array`. -/
def read_long_array (buf : List Nat) (pos : Nat) : DecodeRes ValueType :=
  match readI32 buf pos with
  | .error e => .error e
  | .ok (len, p1) =>
    match read_elems readI64 len.toNat buf p1 with
    | .error e => .error e
    | .ok (xs, p2) => .ok (.LongArray xs, p2)

/-- `read_string`: `i16` length (`as usize`, i.e. sign-extended), that many
bytes, validated as UTF-8 (`String::from_utf8` error propagates via `?`). -/
def read_string (buf : List Nat) (pos : Nat) : DecodeRes ValueType :=
  match readI16 buf pos with
  | .error e => .error e
  | .ok (len, p1) =>
    match readExact (usizeCast len) buf p1 with
    | .error e => .error e
    | .ok (bs, p2) => if validUtf8 bs then .ok (.String bs, p2) else .error .invalidEncoding

/-- `read_name`: same wire format as `read_string` but returns the raw name. -/
def read_name (buf : List Nat) (pos : Nat) : DecodeRes (List Nat) :=
  match readI16 buf pos with
  | .error e => .error e
  | .ok (len, p1) =>
    match readExact (usizeCast len) buf p1 with
    | .error e => .error e
    | .ok (bs, p2) => if validUtf8 bs then .ok (bs, p2) else .error .invalidEncoding

/-- The element loop of `read_list`: `cnt` payloads decoded with the stated
element kind via the recursive entry point `rv` (`read_value` at lower fuel). -/
def read_list_items (rv : Nat → List Nat → Nat → DecodeRes NBTValue) (tid : Nat) :
    Nat → List Nat → Nat → DecodeRes (List NBTValue)
  | 0, _, pos => .ok ([], pos)
  | cnt + 1, buf, pos =>
    match rv tid buf pos with
    | .error e => .error e
    | .ok (v, p1) =>
      match read_list_items rv tid cnt buf p1 with
      | .error e => .error e
      | .ok (vs, p2) => .ok (v :: vs, p2)

/-- `read_list`: a 1-byte element tag-kind id (`as usize`: sign-extended),
an `i32` count, then that many payloads (zero iterations for a negative
count). -/
def read_list (rv : Nat → List Nat → Nat → DecodeRes NBTValue)
    (buf : List Nat) (pos : Nat) : DecodeRes ValueType :=
  match readI8 buf pos with
  | .error e => .error e
  | .ok (t, p1) =>
    match readI32 buf p1 with
    | .error e => .error e
    | .ok (len, p2) =>
      match read_list_items rv (usizeCast t) len.toNat buf p2 with
      | .error e => .error e
      | .ok (vs, p3) => .ok (.List vs, p3)

/-- The `loop` of `read_compound`.  Note the tag-id byte is read with
`read_i8().unwrap()`: at end of buffer this *panics* instead of
returning an error result.  A `0` byte terminates (and is consumed);
otherwise the length-prefixed name is read, then the field payload via
`rv`, and the field is inserted into the map. -/
def read_compound_loop (rv : Nat → List Nat → Nat → DecodeRes NBTValue) :
    Nat → List (List Nat × NBTValue) → List Nat → Nat → DecodeRes ValueType
  | 0, _, _, _ => .error .fuelOut
  | lf + 1, acc, buf, pos =>
    match buf[pos]? with
    | none => .error (.abort .unwrapNone)
    | some b =>
      if b = 0 then .ok (.Compound acc, pos + 1)
      else
        match read_name buf (pos + 1) with
        | .error e => .error e
        | .ok (name, p1) =>
          match rv (usizeCast (toSigned 8 b)) buf p1 with
          | .error e => .error e
          | .ok (child, p2) => read_compound_loop rv lf (hmInsert acc name child) buf p2

/-- `read_compound`: run the field loop starting from an empty map. -/
def read_compound (rv : Nat → List Nat → Nat → DecodeRes NBTValue) (lf : Nat)
    (buf : List Nat) (pos : Nat) : DecodeRes ValueType :=
  read_compound_loop rv lf [] buf pos

/-- The `READ_FNS` dispatch: index 0 is `read_zero`
(`unreachable!`, i.e. a panic), 1..12 are the kind readers, and any
other id panics with index-out-of-bounds at the `READ_FNS[type_id]`
slice access. -/
def read_ty (rv : Nat → List Nat → Nat → DecodeRes NBTValue) (lf : Nat) :
    Nat → List Nat → Nat → DecodeRes ValueType
  | 0, _, _ => .error (.abort .unreachableZero)
  | 1, buf, pos => read_byte buf pos
  | 2, buf, pos => read_short buf pos
  | 3, buf, pos => read_int buf pos
  | 4, buf, pos => read_long buf pos
  | 5, buf, pos => read_float buf pos
  | 6, buf, pos => read_double buf pos
  | 7, buf, pos => read_byte_array buf pos
  | 8, buf, pos => read_string buf pos
  | 9, buf, pos => read_list rv buf pos
  | 10, buf, pos => read_compound rv lf buf pos
  | 11, buf, pos => read_int_array buf pos
  | 12, buf, pos => read_long_array buf pos
  | _ + 13, _, _ => .error (.abort .indexOutOfBounds)

/-- `read_value`: record the position before the kind reader runs as
`start` and the position after as `end`, wrapping the result in an
`NBTValue`.  The first argument is recursion fuel (a model artifact:
the Rust recursion is bounded by the input, fuel exhaustion yields the
artificial `Err.fuelOut`). -/
def read_value : Nat → Nat → List Nat → Nat → DecodeRes NBTValue
  | 0, _, _, _ => .error .fuelOut
  | f + 1, tid, buf, pos =>
    match read_ty (read_value f) f tid buf pos with
    | .ok (ty, p') => .ok (.mk pos p' ty, p')
    | .error e => .error e

/-- `NBTReader::read`: decode the whole buffer as one Compound payload. -/
def read (f : Nat) (data : List Nat) : DecodeRes NBTValue :=
  read_value f 10 data 0

/-- `struct ItemEntry` from `main.rs`. -/
structure ItemEntry : Type where
  index : Nat
  size : Nat
  start : Nat
  endPos : Nat
deriving DecidableEq

/-- The `ItemEntry` list built by `main` from the inventory children,
in enumeration order. -/
def mkItems (children : List NBTValue) : List ItemEntry :=
  children.enum.map (fun p => ⟨p.1, p.2.size, p.2.start, p.2.endPos⟩)

/-- One insertion step of a stable ascending sort by `size`:
the new element goes before the first existing element of
greater-or-equal size. -/
def sortInsert (a : ItemEntry) : List ItemEntry → List ItemEntry
  | [] => [a]
  | b :: l => if a.size ≤ b.size then a :: b :: l else b :: sortInsert a l

/-- Stable insertion sort ascending by `size`: the model of Rust's
`slice::sort_by_key`, which is documented to be a stable sort (equal
keys keep their relative order). -/
def insSort : List ItemEntry → List ItemEntry
  | [] => []
  | a :: l => sortInsert a (insSort l)

/-- The ranking performed by `main`:
`items.sort_by_key(|item| item.size); items.reverse();` —
a stable ascending sort by size followed by a full reversal. -/
def rank (children : List NBTValue) : List ItemEntry :=
  (insSort (mkItems children)).reverse

/-- `data.drain(item.start..item.end)`: remove the bytes `[s, e)`,
shifting the suffix left. -/
def delete_span (buf : List Nat) (s e : Nat) : List Nat :=
  buf.take s ++ buf.drop e

/-- Span-free values: `ValueType` with every node's `start`/`end`
forgotten.  Two decoded nodes are "equal values" in the sense of the
span-exactness property when they erase to the same `PureVal`. -/
inductive PureVal : Type where
  | Byte : Int → PureVal
  | Short : Int → PureVal
  | Int : Int → PureVal
  | Long : Int → PureVal
  | Float : Nat → PureVal
  | Double : Nat → PureVal
  | ByteArray : List Int → PureVal
  | String : List Nat → PureVal
  | List : List PureVal → PureVal
  | Compound : List (List Nat × PureVal) → PureVal
  | IntArray : List Int → PureVal
  | LongArray : List Int → PureVal

mutual
/-- Erase all spans from a node. -/
def eraseVal : NBTValue → PureVal
  | .mk _ _ ty => eraseTy ty

/-- Erase all spans from a value. -/
def eraseTy : ValueType → PureVal
  | .Byte x => .Byte x
  | .Short x => .Short x
  | .Int x => .Int x
  | .Long x => .Long x
  | .Float x => .Float x
  | .Double x => .Double x
  | .ByteArray xs => .ByteArray xs
  | .String bs => .String bs
  | .List vs => .List (eraseList vs)
  | .Compound fs => .Compound (eraseFields fs)
  | .IntArray xs => .IntArray xs
  | .LongArray xs => .LongArray xs

/-- Erase all spans from a list of nodes. -/
def eraseList : List NBTValue → List PureVal
  | [] => []
  | v :: vs => eraseVal v :: eraseList vs

/-- Erase all spans from a field list. -/
def eraseFields : List (List Nat × NBTValue) → List (List Nat × PureVal)
  | [] => []
  | (k, v) :: fs => (k, eraseVal v) :: eraseFields fs
end

mutual
/-- All nodes of a decoded tree: the node itself and, recursively,
every List element and Compound field. -/
def allNodes : NBTValue → List NBTValue
  | .mk s e ty => .mk s e ty :: allNodesTy ty

/-- Nodes strictly below a value. -/
def allNodesTy : ValueType → List NBTValue
  | .List vs => allNodesList vs
  | .Compound fs => allNodesFields fs
  | _ => []

/-- Nodes of a list of subtrees. -/
def allNodesList : List NBTValue → List NBTValue
  | [] => []
  | v :: vs => allNodes v ++ allNodesList vs

/-- Nodes of a field list. -/
def allNodesFields : List (List Nat × NBTValue) → List NBTValue
  | [] => []
  | (_, v) :: fs => allNodes v ++ allNodesFields fs
end

/-- `buf2` agrees with `buf` on `m` bytes: the window of `buf` starting
at `pos` equals the window of `buf2` starting at `pos2`. -/
def agreeOn (buf buf2 : List Nat) (pos pos2 m : Nat) : Prop :=
  ∀ i, i < m → buf2[pos2 + i]? = buf[pos + i]?

/-- Soundness facts every recursive entry point (`read_value` at some
fuel) satisfies on successful reads from `buf`: the position advances
but stays within the buffer, the produced node's span is exactly the
consumed interval, and the value's constructor matches the dispatched
tag-kind id. -/
def RvBounds (rv : Nat → List Nat → Nat → DecodeRes NBTValue) (buf : List Nat) : Prop :=
  ∀ t p w q, rv t buf p = .ok (w, q) →
    p ≤ q ∧ q ≤ buf.length ∧ w.start = p ∧ w.endPos = q ∧ tagOf w.ty = t

/-- Transport property between two entry points: a successful read from
`buf` can be replayed from any position of any buffer that carries the
same bytes, producing a span-erased-equal node and consuming the same
number of bytes. -/
def RvTrans (rv rv2 : Nat → List Nat → Nat → DecodeRes NBTValue) (buf buf2 : List Nat) : Prop :=
  ∀ t p w q p2, rv t buf p = .ok (w, q) →
    agreeOn buf buf2 p p2 (q - p) →
    ∃ w2, rv2 t buf2 p2 = .ok (w2, p2 + (q - p)) ∧ eraseVal w2 = eraseVal w

/-! ## Buffer patcher (C5) -/

/-- C5: for every buffer and every span `(s, e)` with `s ≤ e ≤ len`, the
patch operation returns a buffer of length `len − (e − s)` whose prefix
below `s` and whose shifted suffix are bit-identical to the
corresponding bytes of the input outside `[s, e)`. -/
theorem C5_delete_span (buf : List Nat) (s e : Nat) (hse : s ≤ e) (hel : e ≤ buf.length) :
    (delete_span buf s e).length = buf.length - (e - s)
    ∧ (∀ i, i < s → (delete_span buf s e)[i]? = buf[i]?)
    ∧ (∀ i, s ≤ i → (delete_span buf s e)[i]? = buf[i + (e - s)]?) := by
  have hlt : (buf.take s).length = s := by
    simp [List.length_take]; omega
  refine ⟨?_, ?_, ?_⟩
  · simp [delete_span, List.length_take, List.length_drop]; omega
  · intro i hi
    rw [delete_span, List.getElem?_append, hlt, if_pos hi, List.getElem?_take, if_pos hi]
  · intro i hi
    rw [delete_span, List.getElem?_append, hlt, if_neg (by omega), List.getElem?_drop]
    congr 1
    omega

/-- C5 witness: the theorem applied at the concrete buffer
`[1,2,3,4,5]` with span `(1, 3)`. -/
theorem C5_delete_span_witness :
    (delete_span [1,2,3,4,5] 1 3).length = 5 - (3 - 1)
    ∧ (∀ i, i < 1 → (delete_span [1,2,3,4,5] 1 3)[i]? = [1,2,3,4,5][i]?)
    ∧ (∀ i, 1 ≤ i → (delete_span [1,2,3,4,5] 1 3)[i]? = [1,2,3,4,5][i + (3 - 1)]?) :=
  C5_delete_span [1,2,3,4,5] 1 3 (by decide) (by decide)

/-! ## Navigator lookup (C9) -/

/-- C9 counterexample: looking up an absent key via the `HashMap` `Index`
used by `main` does not return a `MissingField` error result (or any
error result): it panics with "no entry found for key" (modelled as the
`.abort .noEntryFound` outcome, a process abort). -/
theorem C9_missing_field_counterexample :
    hmIndex [] [65] = .error (.abort .noEntryFound) := rfl

/-- C9 amended: for every decoded Compound mapping and absent field
name, the navigator's lookup panics ("no entry found for key") — it
aborts rather than returning a `MissingField` (or any) error result to
the caller. -/
theorem C9_missing_field_amended (m : List (List Nat × NBTValue)) (k : List Nat)
    (habsent : hmGet m k = none) :
    hmIndex m k = .error (.abort .noEntryFound) := by
  simp [hmIndex, habsent]

/-- C9 witness: the amended theorem applied to a one-entry mapping
(key `"B"`) looked up with the absent name `"A"`. -/
theorem C9_missing_field_witness :
    hmIndex [([66], .mk 0 1 (.Byte 0))] [65] = .error (.abort .noEntryFound) :=
  C9_missing_field_amended [([66], .mk 0 1 (.Byte 0))] [65] rfl

/-! ## Ranking (C1) -/

/-- Membership in `sortInsert`. -/
theorem mem_sortInsert {c a : ItemEntry} {l : List ItemEntry} :
    c ∈ sortInsert a l ↔ c = a ∨ c ∈ l := by
  induction l with
  | nil => simp [sortInsert]
  | cons b l ih =>
    by_cases h : a.size ≤ b.size
    · simp [sortInsert, h]
    · simp only [sortInsert, if_neg h, List.mem_cons, ih]
      tauto

/-- `sortInsert` is a permutation of consing. -/
theorem sortInsert_perm (a : ItemEntry) (l : List ItemEntry) :
    List.Perm (sortInsert a l) (a :: l) := by
  induction l with
  | nil => simp [sortInsert]
  | cons b l ih =>
    by_cases h : a.size ≤ b.size
    · simp [sortInsert, h]
    · simp only [sortInsert, if_neg h]
      exact (ih.cons b).trans (List.Perm.swap a b l)

/-- Inserting an element whose original index precedes every element of
an already-sorted list keeps the list sorted in the strict
(size, index)-lexicographic order. -/
theorem pairwise_sortInsert (a : ItemEntry) (l : List ItemEntry)
    (hidx : ∀ b ∈ l, a.index < b.index)
    (hl : l.Pairwise (fun x y => x.size < y.size ∨ (x.size = y.size ∧ x.index < y.index))) :
    (sortInsert a l).Pairwise
      (fun x y => x.size < y.size ∨ (x.size = y.size ∧ x.index < y.index)) := by
  induction l with
  | nil => simp [sortInsert]
  | cons b l ih =>
    rw [List.pairwise_cons] at hl
    obtain ⟨hb, hl⟩ := hl
    by_cases h : a.size ≤ b.size
    · rw [sortInsert, if_pos h, List.pairwise_cons]
      refine ⟨?_, List.pairwise_cons.mpr ⟨hb, hl⟩⟩
      intro c hc
      rcases List.mem_cons.mp hc with rfl | hc
      · rcases Nat.lt_or_ge a.size c.size with hlt | hge
        · exact Or.inl hlt
        · exact Or.inr ⟨by omega, hidx c (List.mem_cons_self c l)⟩
      · rcases hb c hc with hlt | ⟨heq, _⟩
        · exact Or.inl (by omega)
        · rcases Nat.lt_or_ge a.size c.size with hlt' | hge'
          · exact Or.inl hlt'
          · exact Or.inr ⟨by omega, hidx c (List.mem_cons_of_mem b hc)⟩
    · rw [sortInsert, if_neg h, List.pairwise_cons]
      refine ⟨?_, ih (fun c hc => hidx c (List.mem_cons_of_mem b hc)) hl⟩
      intro c hc
      rcases mem_sortInsert.mp hc with rfl | hc
      · exact Or.inl (by omega)
      · exact hb c hc

/-- `insSort` is a permutation. -/
theorem insSort_perm (l : List ItemEntry) : List.Perm (insSort l) l := by
  induction l with
  | nil => simp [insSort]
  | cons a l ih => exact (sortInsert_perm a (insSort l)).trans (ih.cons a)

/-- Stable insertion sort of a list of entries with strictly increasing
original indices is sorted in the strict (size, index)-lexicographic
order: equal sizes end up in original index order. -/
theorem insSort_pairwise (l : List ItemEntry)
    (h : l.Pairwise (fun x y => x.index < y.index)) :
    (insSort l).Pairwise
      (fun x y => x.size < y.size ∨ (x.size = y.size ∧ x.index < y.index)) := by
  induction l with
  | nil => simp [insSort]
  | cons a l ih =>
    rw [List.pairwise_cons] at h
    obtain ⟨ha, h⟩ := h
    exact pairwise_sortInsert a (insSort l)
      (fun b hb => ha b ((insSort_perm l).mem_iff.mp hb)) (ih h)

/-- The indices produced by `enumFrom` are strictly increasing. -/
theorem pairwise_enumFrom {α : Type} (l : List α) (n : Nat) :
    (List.enumFrom n l).Pairwise (fun p q => p.1 < q.1) := by
  induction l generalizing n with
  | nil => simp
  | cons a l ih =>
    rw [List.enumFrom, List.pairwise_cons]
    refine ⟨?_, ih (n + 1)⟩
    rintro ⟨i, x⟩ hq
    exact lt_of_lt_of_le (Nat.lt_succ_self n) (List.mem_enumFrom hq).1

/-- The entries built by `main` have strictly increasing `index` fields. -/
theorem mkItems_pairwise (children : List NBTValue) :
    (mkItems children).Pairwise (fun x y => x.index < y.index) := by
  rw [mkItems, List.pairwise_map]
  exact pairwise_enumFrom children 0

/-- C1 counterexample: for children of sizes `[5, 3, 5, 1]` at indices
`[0, 1, 2, 3]`, the ranking does *not* yield
`[(0,5),(2,5),(1,3),(3,1)]` — the two size-5 entries come out in
reversed index order (`(2,5)` before `(0,5)`), because `main` runs a
stable *ascending* sort and then reverses the whole list. -/
theorem C1_rank_counterexample :
    (rank [.mk 0 5 (.Byte 0), .mk 5 8 (.Byte 0), .mk 8 13 (.Byte 0), .mk 13 14 (.Byte 0)]).map
      (fun it => (it.index, it.size)) ≠ [(0,5),(2,5),(1,3),(3,1)] := by
  decide

/-- C1 amended: the ranking is sorted by size descending, but entries
with equal size appear in *reverse* of their original index order
(a stable ascending sort followed by a full reversal); it is a
permutation of the original entries, and for sizes `[5, 3, 5, 1]` at
indices `[0,1,2,3]` it yields `[(2,5),(0,5),(1,3),(3,1)]`. -/
theorem C1_rank_amended (children : List NBTValue) :
    (rank children).Pairwise
      (fun x y => y.size < x.size ∨ (y.size = x.size ∧ y.index < x.index))
    ∧ List.Perm (rank children) (mkItems children)
    ∧ (rank [.mk 0 5 (.Byte 0), .mk 5 8 (.Byte 0), .mk 8 13 (.Byte 0), .mk 13 14 (.Byte 0)]).map
        (fun it => (it.index, it.size)) = [(2,5),(0,5),(1,3),(3,1)] := by
  refine ⟨?_, ?_, by decide⟩
  · rw [rank, List.pairwise_reverse]
    exact insSort_pairwise (mkItems children) (mkItems_pairwise children)
  · exact (List.reverse_perm _).trans (insSort_perm _)

/-! ## Primitive read facts -/

/-- Successful `readExact` characterised. -/
theorem readExact_ok {n : Nat} {buf : List Nat} {pos : Nat} {bs : List Nat} {p' : Nat}
    (h : readExact n buf pos = .ok (bs, p')) :
    bs = (buf.drop pos).take n ∧ p' = pos + n ∧ pos + n ≤ buf.length ∧ bs.length = n := by
  rw [readExact] at h
  split at h
  · rename_i hle
    injection h with h'
    injection h' with h1 h2
    refine ⟨h1.symm, h2.symm, hle, ?_⟩
    subst h1
    simp [List.length_take, List.length_drop]
    omega
  · exact absurd h (by simp)

/-- Successful `readBE` advances by exactly `w` bytes, within bounds. -/
theorem readBE_ok {w : Nat} {buf : List Nat} {pos : Nat} {x p' : Nat}
    (h : readBE w buf pos = .ok (x, p')) :
    p' = pos + w ∧ pos + w ≤ buf.length ∧ x = beVal ((buf.drop pos).take w) := by
  rw [readBE] at h
  split at h
  · rename_i bs p heq
    injection h with h'
    injection h' with h1 h2
    obtain ⟨hbs, hp, hle, _⟩ := readExact_ok heq
    exact ⟨h2 ▸ hp, hle, h1 ▸ hbs ▸ rfl⟩
  · exact absurd h (by simp)

/-- Successful `readIntBE` advances by exactly `w` bytes, within bounds. -/
theorem readIntBE_ok {w bits : Nat} {buf : List Nat} {pos : Nat} {x : Int} {p' : Nat}
    (h : readIntBE w bits buf pos = .ok (x, p')) :
    p' = pos + w ∧ pos + w ≤ buf.length := by
  rw [readIntBE] at h
  split at h
  · rename_i v p heq
    injection h with h'
    injection h' with h1 h2
    obtain ⟨hp, hle, _⟩ := readBE_ok heq
    exact ⟨h2 ▸ hp, hle⟩
  · exact absurd h (by simp)

/-- Successful `read_name`: the new position is past the two length
bytes and the name bytes, all within the buffer, and the name is valid
UTF-8. -/
theorem read_name_ok {buf : List Nat} {pos : Nat} {nm : List Nat} {p' : Nat}
    (h : read_name buf pos = .ok (nm, p')) :
    p' = pos + 2 + nm.length ∧ pos + 2 + nm.length ≤ buf.length ∧ validUtf8 nm = true := by
  rw [read_name] at h
  split at h
  · exact absurd h (by simp)
  · rename_i len p1 heq16
    split at h
    · exact absurd h (by simp)
    · rename_i bs p2 heqex
      obtain ⟨hp1, hle1⟩ := readIntBE_ok heq16
      obtain ⟨hbs, hp2, hle2, hlen⟩ := readExact_ok heqex
      split at h
      · rename_i hvalid
        injection h with h'
        injection h' with h1 h2
        subst h1
        constructor
        · omega
        · exact ⟨by omega, hvalid⟩
      · exact absurd h (by simp)

/-! ## Loop specifications -/

/-- Bounds for the array-element loops, for any fixed-width element
reader `rd`. -/
theorem read_elems_bounds {rd : List Nat → Nat → DecodeRes Int} {w : Nat}
    {buf : List Nat}
    (hrd : ∀ p x q, rd buf p = .ok (x, q) → q = p + w ∧ p + w ≤ buf.length)
    {cnt : Nat} {pos : Nat} {xs : List Int} {p' : Nat}
    (h : read_elems rd cnt buf pos = .ok (xs, p')) :
    pos ≤ p' ∧ (p' = pos ∨ p' ≤ buf.length) := by
  induction cnt generalizing pos xs p' with
  | zero =>
    rw [read_elems] at h
    injection h with h'
    injection h' with h1 h2
    omega
  | succ cnt ih =>
    rw [read_elems] at h
    split at h
    · exact absurd h (by simp)
    · rename_i x p1 heq1
      split at h
      · exact absurd h (by simp)
      · rename_i ys p2 heq2
        injection h with h'
        injection h' with h1 h2
        obtain ⟨hq, hle⟩ := hrd pos x p1 heq1
        obtain ⟨hle2, hor⟩ := ih heq2
        subst h2
        omega

/-- Specification of the list-element loop under a well-behaved entry
point: positions advance within bounds, children's spans are pairwise
contiguous, every child's span sits between the loop's start and end,
the first child starts at the loop's start position, each child is
reproduced by re-running `rv` at its own start, and the count is the
number of children. -/
theorem read_list_items_spec {rv : Nat → List Nat → Nat → DecodeRes NBTValue}
    {buf : List Nat} (hrv : RvBounds rv buf) {tid cnt : Nat} {pos : Nat}
    {vs : List NBTValue} {p' : Nat}
    (h : read_list_items rv tid cnt buf pos = .ok (vs, p')) :
    pos ≤ p' ∧ (p' = pos ∨ p' ≤ buf.length)
    ∧ List.Chain' (fun a b => b.start = a.endPos) vs
    ∧ (∀ c ∈ vs, pos ≤ c.start ∧ c.endPos ≤ p'
        ∧ rv tid buf c.start = .ok (c, c.endPos) ∧ tagOf c.ty = tid)
    ∧ (∀ c, vs.head? = some c → c.start = pos)
    ∧ vs.length = cnt := by
  induction cnt generalizing pos vs with
  | zero =>
    rw [read_list_items] at h
    injection h with h'
    injection h' with h1 h2
    subst h1; subst h2
    simp
  | succ cnt ih =>
    rw [read_list_items] at h
    split at h
    · exact absurd h (by simp)
    · rename_i v p1 heq1
      split at h
      · exact absurd h (by simp)
      · rename_i ys p2 heq2
        injection h with h'
        injection h' with h1 h2
        subst h1; subst h2
        obtain ⟨hle1, hlen1, hstart1, hend1, htag1⟩ := hrv tid pos v p1 heq1
        obtain ⟨hle2, hor2, hchain, hmem, hhead, hcount⟩ := ih heq2
        have hv1 : rv tid buf v.start = .ok (v, v.endPos) := by
          rw [hstart1, hend1]; exact heq1
        refine ⟨by omega, by omega, ?_, ?_, ?_, by simp [hcount]⟩
        · cases ys with
          | nil => simp
          | cons y ys' =>
            rw [List.chain'_cons]
            exact ⟨by rw [hhead y rfl, hend1], hchain⟩
        · intro c hc
          rcases List.mem_cons.mp hc with rfl | hc
          · exact ⟨by omega, by omega, hv1, htag1⟩
          · obtain ⟨h1, h2, h3, h4⟩ := hmem c hc
            exact ⟨by omega, by omega, h3, h4⟩
        · intro c hc
          rw [List.head?_cons] at hc
          injection hc with hc
          subst hc
          exact hstart1

/-- Membership after a `HashMap::insert`. -/
theorem mem_hmInsert {m : List (List Nat × NBTValue)} {k k' : List Nat} {v v' : NBTValue}
    (h : (k', v') ∈ hmInsert m k v) : (k' = k ∧ v' = v) ∨ (k', v') ∈ m := by
  induction m with
  | nil =>
    rw [hmInsert] at h
    rcases List.mem_singleton.mp h with h'
    exact Or.inl ⟨congrArg Prod.fst h', congrArg Prod.snd h'⟩
  | cons p m ih =>
    obtain ⟨k1, v1⟩ := p
    rw [hmInsert] at h
    split at h
    · rcases List.mem_cons.mp h with h' | h'
      · exact Or.inl ⟨congrArg Prod.fst h', congrArg Prod.snd h'⟩
      · exact Or.inr (List.mem_cons_of_mem _ h')
    · rcases List.mem_cons.mp h with h' | h'
      · exact Or.inr (List.mem_cons.mpr (Or.inl h'))
      · rcases ih h' with h'' | h''
        · exact Or.inl h''
        · exact Or.inr (List.mem_cons_of_mem _ h'')

/-- Specification of the compound field loop under a well-behaved entry
point: the loop consumes at least the terminator byte, stays in bounds,
returns a `Compound`, and every returned field either was already in
the accumulator or was read from a tag-id byte, a length-prefixed name,
and a payload reproduced by re-running `rv` at the payload's start. -/
theorem read_compound_loop_spec {rv : Nat → List Nat → Nat → DecodeRes NBTValue}
    {buf : List Nat} (hrv : RvBounds rv buf) {lf : Nat}
    {acc : List (List Nat × NBTValue)} {pos : Nat} {ty : ValueType} {p' : Nat}
    (h : read_compound_loop rv lf acc buf pos = .ok (ty, p')) :
    pos < p' ∧ p' ≤ buf.length
    ∧ ∃ fields, ty = .Compound fields
      ∧ ∀ k n, (k, n) ∈ fields → (k, n) ∈ acc
        ∨ ∃ p b, buf[p]? = some b ∧ b ≠ 0 ∧ pos ≤ p
            ∧ read_name buf (p + 1) = .ok (k, n.start)
            ∧ usizeCast (toSigned 8 b) = tagOf n.ty
            ∧ rv (tagOf n.ty) buf n.start = .ok (n, n.endPos) := by
  induction lf generalizing acc pos with
  | zero => exact absurd h (by rw [read_compound_loop] at h; simp at h)
  | succ lf ih =>
    rw [read_compound_loop] at h
    split at h
    · exact absurd h (by simp)
    · rename_i b heqb
      have hpos : pos < buf.length := (List.getElem?_eq_some.mp heqb).1
      split at h
      · rename_i hb0
        injection h with h'
        injection h' with h1 h2
        subst h1; subst h2
        exact ⟨by omega, by omega, acc, rfl, fun k n hkn => Or.inl hkn⟩
      · rename_i hb0
        split at h
        · exact absurd h (by simp)
        · rename_i name p1 heqnm
          split at h
          · exact absurd h (by simp)
          · rename_i child p2 heqc
            obtain ⟨hlt, hle, fields, hty, hmem⟩ := ih h
            obtain ⟨hcle, hclen, hcstart, hcend, hctag⟩ :=
              hrv (usizeCast (toSigned 8 b)) p1 child p2 heqc
            obtain ⟨hp1, hp1le, _⟩ := read_name_ok heqnm
            refine ⟨by omega, hle, fields, hty, ?_⟩
            intro k n hkn
            rcases hmem k n hkn with hacc | ⟨p, b', hb', hb'0, hples, hnm, htg, hre⟩
            · rcases mem_hmInsert hacc with ⟨rfl, rfl⟩ | hacc'
              · refine Or.inr ⟨pos, b, heqb, hb0, Nat.le_refl pos, ?_, ?_, ?_⟩
                · rw [hcstart]; exact heqnm
                · rw [hctag]
                · rw [hctag, hcstart, hcend]; exact heqc
              · exact Or.inl hacc'
            · exact Or.inr ⟨p, b', hb', hb'0, by omega, hnm, htg, hre⟩

/-- Facts about a successful `read_ty` dispatch: the position advances
within bounds and the produced value's constructor matches the
dispatched tag-kind id. -/
theorem read_ty_ok_facts {rv : Nat → List Nat → Nat → DecodeRes NBTValue}
    {buf : List Nat} (hrv : RvBounds rv buf) {lf t pos : Nat} {ty : ValueType} {p' : Nat}
    (h : read_ty rv lf t buf pos = .ok (ty, p')) :
    pos ≤ p' ∧ p' ≤ buf.length ∧ tagOf ty = t := by
  have hi8 : ∀ p x q, readI8 buf p = .ok (x, q) → q = p + 1 ∧ p + 1 ≤ buf.length :=
    fun p x q hx => readIntBE_ok hx
  have hi32 : ∀ p x q, readI32 buf p = .ok (x, q) → q = p + 4 ∧ p + 4 ≤ buf.length :=
    fun p x q hx => readIntBE_ok hx
  have hi64 : ∀ p x q, readI64 buf p = .ok (x, q) → q = p + 8 ∧ p + 8 ≤ buf.length :=
    fun p x q hx => readIntBE_ok hx
  by_cases ht : t ≤ 12
  · interval_cases t
    · exact absurd h (by simp [read_ty])
    · simp only [read_ty, read_byte] at h
      split at h
      · rename_i x p1 heq
        injection h with h'
        injection h' with h1 h2
        obtain ⟨hq, hle⟩ := readIntBE_ok heq
        exact ⟨by omega, by omega, by rw [← h1, tagOf]⟩
      · exact absurd h (by simp)
    · simp only [read_ty, read_short] at h
      split at h
      · rename_i x p1 heq
        injection h with h'
        injection h' with h1 h2
        obtain ⟨hq, hle⟩ := readIntBE_ok heq
        exact ⟨by omega, by omega, by rw [← h1, tagOf]⟩
      · exact absurd h (by simp)
    · simp only [read_ty, read_int] at h
      split at h
      · rename_i x p1 heq
        injection h with h'
        injection h' with h1 h2
        obtain ⟨hq, hle⟩ := readIntBE_ok heq
        exact ⟨by omega, by omega, by rw [← h1, tagOf]⟩
      · exact absurd h (by simp)
    · simp only [read_ty, read_long] at h
      split at h
      · rename_i x p1 heq
        injection h with h'
        injection h' with h1 h2
        obtain ⟨hq, hle⟩ := readIntBE_ok heq
        exact ⟨by omega, by omega, by rw [← h1, tagOf]⟩
      · exact absurd h (by simp)
    · simp only [read_ty, read_float] at h
      split at h
      · rename_i x p1 heq
        injection h with h'
        injection h' with h1 h2
        obtain ⟨hq, hle, _⟩ := readBE_ok heq
        exact ⟨by omega, by omega, by rw [← h1, tagOf]⟩
      · exact absurd h (by simp)
    · simp only [read_ty, read_double] at h
      split at h
      · rename_i x p1 heq
        injection h with h'
        injection h' with h1 h2
        obtain ⟨hq, hle, _⟩ := readBE_ok heq
        exact ⟨by omega, by omega, by rw [← h1, tagOf]⟩
      · exact absurd h (by simp)
    · simp only [read_ty, read_byte_array] at h
      split at h
      · exact absurd h (by simp)
      · rename_i len p1 heq32
        split at h
        · exact absurd h (by simp)
        · rename_i xs p2 heqel
          injection h with h'
          injection h' with h1 h2
          obtain ⟨hq, hle⟩ := readIntBE_ok heq32
          obtain ⟨hle2, hor⟩ := read_elems_bounds hi8 heqel
          exact ⟨by omega, by omega, by rw [← h1, tagOf]⟩
    · simp only [read_ty, read_string] at h
      split at h
      · exact absurd h (by simp)
      · rename_i len p1 heq16
        split at h
        · exact absurd h (by simp)
        · rename_i bs p2 heqex
          obtain ⟨hq, hle⟩ := readIntBE_ok heq16
          obtain ⟨_, hp2, hle2, _⟩ := readExact_ok heqex
          split at h
          · injection h with h'
            injection h' with h1 h2
            exact ⟨by omega, by omega, by rw [← h1, tagOf]⟩
          · exact absurd h (by simp)
    · simp only [read_ty, read_list] at h
      split at h
      · exact absurd h (by simp)
      · rename_i tel p1 heq8
        split at h
        · exact absurd h (by simp)
        · rename_i len p2 heq32
          split at h
          · exact absurd h (by simp)
          · rename_i vs p3 heqit
            injection h with h'
            injection h' with h1 h2
            obtain ⟨hq1, hle1⟩ := readIntBE_ok heq8
            obtain ⟨hq2, hle2⟩ := readIntBE_ok heq32
            obtain ⟨hle3, hor, _⟩ := read_list_items_spec hrv heqit
            exact ⟨by omega, by omega, by rw [← h1, tagOf]⟩
    · simp only [read_ty, read_compound] at h
      obtain ⟨hlt, hle, fields, hty, _⟩ := read_compound_loop_spec hrv h
      exact ⟨by omega, hle, by rw [hty, tagOf]⟩
    · simp only [read_ty, read_int_array] at h
      split at h
      · exact absurd h (by simp)
      · rename_i len p1 heq32
        split at h
        · exact absurd h (by simp)
        · rename_i xs p2 heqel
          injection h with h'
          injection h' with h1 h2
          obtain ⟨hq, hle⟩ := readIntBE_ok heq32
          obtain ⟨hle2, hor⟩ := read_elems_bounds hi32 heqel
          exact ⟨by omega, by omega, by rw [← h1, tagOf]⟩
    · simp only [read_ty, read_long_array] at h
      split at h
      · exact absurd h (by simp)
      · rename_i len p1 heq32
        split at h
        · exact absurd h (by simp)
        · rename_i xs p2 heqel
          injection h with h'
          injection h' with h1 h2
          obtain ⟨hq, hle⟩ := readIntBE_ok heq32
          obtain ⟨hle2, hor⟩ := read_elems_bounds hi64 heqel
          exact ⟨by omega, by omega, by rw [← h1, tagOf]⟩
  · obtain ⟨k, rfl⟩ : ∃ k, t = k + 13 := ⟨t - 13, by omega⟩
    exact absurd h (by simp [read_ty])

/-- `read_value` at any fuel satisfies the `RvBounds` soundness facts. -/
theorem read_value_spec (f : Nat) (buf : List Nat) : RvBounds (read_value f) buf := by
  induction f with
  | zero =>
    intro t p w q h
    exact absurd h (by rw [read_value]; simp)
  | succ f ih =>
    intro t p w q h
    rw [read_value] at h
    split at h
    · rename_i ty p2 heq
      injection h with h'
      injection h' with h1 h2
      obtain ⟨hle, hlen, htag⟩ := read_ty_ok_facts ih heq
      subst h2
      refine ⟨hle, hlen, ?_, ?_, ?_⟩
      · rw [← h1, NBTValue.start]
      · rw [← h1, NBTValue.endPos]
      · rw [← h1, NBTValue.ty, htag]
    · exact absurd h (by simp)

/-! ## Fuel monotonicity -/

/-- List-element loop monotonicity in the entry point. -/
theorem read_list_items_mono {rv rv' : Nat → List Nat → Nat → DecodeRes NBTValue}
    (hrv : ∀ t b p r, rv t b p = .ok r → rv' t b p = .ok r)
    {tid cnt : Nat} {buf : List Nat} {pos : Nat} {r : List NBTValue × Nat}
    (h : read_list_items rv tid cnt buf pos = .ok r) :
    read_list_items rv' tid cnt buf pos = .ok r := by
  induction cnt generalizing pos r with
  | zero => rw [read_list_items] at h ⊢; exact h
  | succ cnt ih =>
    rw [read_list_items] at h
    split at h
    · exact absurd h (by simp)
    · rename_i v p1 heq1
      split at h
      · exact absurd h (by simp)
      · rename_i vs p2 heq2
        have h1' := hrv _ _ _ _ heq1
        have h2' := ih heq2
        simp only [read_list_items, h1', h2']
        exact h

/-- Compound field loop monotonicity in the entry point and loop fuel. -/
theorem read_compound_loop_mono {rv rv' : Nat → List Nat → Nat → DecodeRes NBTValue}
    (hrv : ∀ t b p r, rv t b p = .ok r → rv' t b p = .ok r)
    {lf lf' : Nat} (hlf : lf ≤ lf') {acc : List (List Nat × NBTValue)}
    {buf : List Nat} {pos : Nat} {r : ValueType × Nat}
    (h : read_compound_loop rv lf acc buf pos = .ok r) :
    read_compound_loop rv' lf' acc buf pos = .ok r := by
  induction lf generalizing lf' acc pos r with
  | zero => exact absurd h (by rw [read_compound_loop]; simp)
  | succ lf ih =>
    obtain ⟨lf'', rfl⟩ : ∃ k, lf' = k + 1 := ⟨lf' - 1, by omega⟩
    rw [read_compound_loop] at h
    split at h
    · exact absurd h (by simp)
    · rename_i b heqb
      split at h
      · rename_i hb0
        simp only [read_compound_loop, heqb, if_pos hb0]
        exact h
      · rename_i hb0
        split at h
        · exact absurd h (by simp)
        · rename_i name p1 heqnm
          split at h
          · exact absurd h (by simp)
          · rename_i child p2 heqc
            have hc' := hrv _ _ _ _ heqc
            have hrec := ih (show lf ≤ lf'' by omega) h
            simp only [read_compound_loop, heqb, if_neg hb0, heqnm, hc']
            exact hrec

/-- `read_ty` monotonicity in the entry point and loop fuel. -/
theorem read_ty_mono {rv rv' : Nat → List Nat → Nat → DecodeRes NBTValue}
    (hrv : ∀ t b p r, rv t b p = .ok r → rv' t b p = .ok r)
    {lf lf' : Nat} (hlf : lf ≤ lf') {t : Nat} {buf : List Nat} {pos : Nat}
    {r : ValueType × Nat}
    (h : read_ty rv lf t buf pos = .ok r) : read_ty rv' lf' t buf pos = .ok r := by
  by_cases ht : t ≤ 12
  · interval_cases t
    · exact absurd h (by simp [read_ty])
    · simpa only [read_ty] using h
    · simpa only [read_ty] using h
    · simpa only [read_ty] using h
    · simpa only [read_ty] using h
    · simpa only [read_ty] using h
    · simpa only [read_ty] using h
    · simpa only [read_ty] using h
    · simpa only [read_ty] using h
    · simp only [read_ty, read_list] at h ⊢
      split at h
      · exact absurd h (by simp)
      · rename_i tel p1 heq8
        split at h
        · exact absurd h (by simp)
        · rename_i len p2 heq32
          split at h
          · exact absurd h (by simp)
          · rename_i vs p3 heqit
            have hit' := read_list_items_mono hrv heqit
            simp only [heq8, heq32, hit']
            exact h
    · simp only [read_ty, read_compound] at h ⊢
      exact read_compound_loop_mono hrv hlf h
    · simpa only [read_ty] using h
    · simpa only [read_ty] using h
  · obtain ⟨k, rfl⟩ : ∃ k, t = k + 13 := ⟨t - 13, by omega⟩
    exact absurd h (by simp [read_ty])

/-- `read_value` monotonicity in the fuel. -/
theorem read_value_mono (f : Nat) : ∀ g, f ≤ g → ∀ tid buf pos r,
    read_value f tid buf pos = .ok r → read_value g tid buf pos = .ok r := by
  induction f with
  | zero =>
    intro g hg tid buf pos r h
    exact absurd h (by rw [read_value]; simp)
  | succ f ih =>
    intro g hg tid buf pos r h
    obtain ⟨g', rfl⟩ : ∃ k, g = k + 1 := ⟨g - 1, by omega⟩
    rw [read_value] at h
    split at h
    · rename_i ty p2 heq
      have heq' := read_ty_mono (fun t b p r hr => ih g' (by omega) t b p r hr)
        (by omega : f ≤ g') heq
      simp only [read_value, heq']
      exact h
    · exact absurd h (by simp)

/-! ## Subnode decoding -/

/-- A node below a list of subtrees lies below one of them. -/
theorem mem_allNodesList {n : NBTValue} {vs : List NBTValue}
    (h : n ∈ allNodesList vs) : ∃ c ∈ vs, n ∈ allNodes c := by
  induction vs with
  | nil => simp [allNodesList] at h
  | cons v vs ih =>
    rw [allNodesList] at h
    rcases List.mem_append.mp h with h' | h'
    · exact ⟨v, List.mem_cons_self v vs, h'⟩
    · obtain ⟨c, hc, hn⟩ := ih h'
      exact ⟨c, List.mem_cons_of_mem v hc, hn⟩

/-- A node below a field list lies below one of the fields. -/
theorem mem_allNodesFields {n : NBTValue} {fs : List (List Nat × NBTValue)}
    (h : n ∈ allNodesFields fs) : ∃ k c, (k, c) ∈ fs ∧ n ∈ allNodes c := by
  induction fs with
  | nil => simp [allNodesFields] at h
  | cons p fs ih =>
    obtain ⟨k, v⟩ := p
    rw [allNodesFields] at h
    rcases List.mem_append.mp h with h' | h'
    · exact ⟨k, v, List.mem_cons_self _ fs, h'⟩
    · obtain ⟨k', c, hc, hn⟩ := ih h'
      exact ⟨k', c, List.mem_cons_of_mem _ hc, hn⟩

/-- Every node of a successfully decoded tree is itself reproduced by
running `read_value` (same fuel) at the node's own start position with
the node's own tag kind, consuming exactly the node's span. -/
theorem read_value_sub (f : Nat) : ∀ tid buf pos v q n,
    read_value f tid buf pos = .ok (v, q) → n ∈ allNodes v →
    read_value f (tagOf n.ty) buf n.start = .ok (n, n.endPos) := by
  induction f with
  | zero =>
    intro tid buf pos v q n h _
    exact absurd h (by rw [read_value]; simp)
  | succ f ih =>
    intro tid buf pos v q n h hn
    rw [read_value] at h
    split at h
    · rename_i ty p2 heq
      injection h with h'
      injection h' with h1 h2
      subst h2
      subst h1
      obtain ⟨hle, hlen, htag⟩ := read_ty_ok_facts (read_value_spec f buf) heq
      rw [allNodes] at hn
      rcases List.mem_cons.mp hn with rfl | hn
      · simp only [NBTValue.ty, NBTValue.start, NBTValue.endPos]
        rw [htag]
        simp only [read_value, heq]
      · cases hty : ty with
        | List vs =>
          subst hty
          rw [tagOf] at htag
          subst htag
          simp only [read_ty, read_list] at heq
          split at heq
          · exact absurd heq (by simp)
          · rename_i tel p1 heq8
            split at heq
            · exact absurd heq (by simp)
            · rename_i len p2' heq32
              split at heq
              · exact absurd heq (by simp)
              · rename_i vs' p3 heqit
                injection heq with heq'
                injection heq' with hty' hp3
                injection hty' with hvs
                subst hvs
                rw [allNodesTy] at hn
                obtain ⟨c, hc, hnc⟩ := mem_allNodesList hn
                obtain ⟨_, _, hre, hct⟩ :=
                  ((read_list_items_spec (read_value_spec f buf) heqit).2.2.2.1) c hc
                rw [← hct] at hre
                exact read_value_mono f (f + 1) (by omega) _ buf n.start (n, n.endPos)
                  (ih _ buf c.start c c.endPos n hre hnc)
        | Compound fs =>
          subst hty
          rw [tagOf] at htag
          subst htag
          simp only [read_ty, read_compound] at heq
          obtain ⟨_, _, fields, hfty, hmem⟩ :=
            read_compound_loop_spec (read_value_spec f buf) heq
          injection hfty with hfs
          subst hfs
          rw [allNodesTy] at hn
          obtain ⟨k, c, hkc, hnc⟩ := mem_allNodesFields hn
          rcases hmem k c hkc with hacc | ⟨p, b, _, _, _, _, _, hre⟩
          · exact absurd hacc (List.not_mem_nil _)
          · exact read_value_mono f (f + 1) (by omega) _ buf n.start (n, n.endPos)
              (ih _ buf c.start c c.endPos n hre hnc)
        | Byte x => subst hty; simp [allNodesTy] at hn
        | Short x => subst hty; simp [allNodesTy] at hn
        | Int x => subst hty; simp [allNodesTy] at hn
        | Long x => subst hty; simp [allNodesTy] at hn
        | Float x => subst hty; simp [allNodesTy] at hn
        | Double x => subst hty; simp [allNodesTy] at hn
        | ByteArray x => subst hty; simp [allNodesTy] at hn
        | String x => subst hty; simp [allNodesTy] at hn
        | IntArray x => subst hty; simp [allNodesTy] at hn
        | LongArray x => subst hty; simp [allNodesTy] at hn
    · exact absurd h (by simp)

/-! ## Transport of reads to another buffer carrying the same bytes -/

/-- Restrict an agreement window to a sub-window. -/
theorem agreeOn_shift {buf buf2 : List Nat} {pos pos2 m : Nat}
    (h : agreeOn buf buf2 pos pos2 m) {p k : Nat} (hp : pos ≤ p) (hk : p + k ≤ pos + m) :
    agreeOn buf buf2 p (pos2 + (p - pos)) k := by
  intro i hi
  have e2 : pos2 + (p - pos) + i = pos2 + (p - pos + i) := by omega
  have e1 : pos + (p - pos + i) = p + i := by omega
  rw [e2, h (p - pos + i) (by omega), e1]

/-- `readExact` transported along an agreement window. -/
theorem readExact_transport {m : Nat} {buf : List Nat} {pos : Nat} {bs : List Nat} {p' : Nat}
    {buf2 : List Nat} {pos2 : Nat}
    (h : readExact m buf pos = .ok (bs, p'))
    (ha : agreeOn buf buf2 pos pos2 m) (hb : pos2 ≤ buf2.length) :
    readExact m buf2 pos2 = .ok (bs, pos2 + m) := by
  obtain ⟨hbs, hp, hle, hlen⟩ := readExact_ok h
  have hb2 : pos2 + m ≤ buf2.length := by
    cases m with
    | zero => omega
    | succ m' =>
      have hsome : buf[pos + m']? = some (buf.get ⟨pos + m', by omega⟩) :=
        List.getElem?_eq_getElem (by omega)
      have h2 := ha m' (by omega)
      rw [hsome] at h2
      have := (List.getElem?_eq_some.mp h2).1
      omega
  have hbytes : (buf2.drop pos2).take m = (buf.drop pos).take m := by
    apply List.ext_getElem?
    intro i
    rw [List.getElem?_take, List.getElem?_take]
    split
    · rename_i him
      rw [List.getElem?_drop, List.getElem?_drop]
      exact ha i him
    · rfl
  rw [readExact, if_pos hb2, hbytes, hbs]

/-- `readBE` transported along an agreement window. -/
theorem readBE_transport {w : Nat} {buf : List Nat} {pos : Nat} {x p' : Nat}
    {buf2 : List Nat} {pos2 : Nat} (hw : 0 < w)
    (h : readBE w buf pos = .ok (x, p'))
    (ha : agreeOn buf buf2 pos pos2 w) :
    readBE w buf2 pos2 = .ok (x, pos2 + w) ∧ pos2 + w ≤ buf2.length := by
  obtain ⟨hp, hle, hx⟩ := readBE_ok h
  have hb : pos2 ≤ buf2.length := by
    have hsome : buf[pos]? = some (buf.get ⟨pos, by omega⟩) :=
      List.getElem?_eq_getElem (by omega)
    have h2 := ha 0 hw
    rw [Nat.add_zero, Nat.add_zero, hsome] at h2
    have := (List.getElem?_eq_some.mp h2).1
    omega
  rw [readBE] at h
  split at h
  · rename_i bs p heq
    injection h with h'
    injection h' with h1 h2
    have hex := readExact_transport heq ha hb
    have hb2 : pos2 + w ≤ buf2.length := (readExact_ok hex).2.2.1
    refine ⟨?_, hb2⟩
    simp only [readBE, hex]
    rw [h1]
  · exact absurd h (by simp)

/-- `readIntBE` transported along an agreement window. -/
theorem readIntBE_transport {w bits : Nat} {buf : List Nat} {pos : Nat} {x : Int} {p' : Nat}
    {buf2 : List Nat} {pos2 : Nat} (hw : 0 < w)
    (h : readIntBE w bits buf pos = .ok (x, p'))
    (ha : agreeOn buf buf2 pos pos2 w) :
    readIntBE w bits buf2 pos2 = .ok (x, pos2 + w) ∧ pos2 + w ≤ buf2.length := by
  rw [readIntBE] at h
  split at h
  · rename_i v p heq
    injection h with h'
    injection h' with h1 h2
    obtain ⟨hbe, hb2⟩ := readBE_transport hw heq ha
    refine ⟨?_, hb2⟩
    simp only [readIntBE, hbe]
    rw [h1]
  · exact absurd h (by simp)

/-- `read_name` transported along an agreement window covering exactly
the bytes it consumed: the same name results. -/
theorem read_name_transport {buf : List Nat} {pos : Nat} {nm : List Nat} {p' : Nat}
    {buf2 : List Nat} {pos2 : Nat}
    (h : read_name buf pos = .ok (nm, p'))
    (ha : agreeOn buf buf2 pos pos2 (p' - pos)) :
    read_name buf2 pos2 = .ok (nm, pos2 + (p' - pos)) := by
  obtain ⟨hp', hple, hvalid⟩ := read_name_ok h
  rw [read_name] at h
  split at h
  · exact absurd h (by simp)
  · rename_i len p1 heq16
    split at h
    · exact absurd h (by simp)
    · rename_i bs p2 heqex
      obtain ⟨hp1, hle1⟩ := readIntBE_ok heq16
      obtain ⟨hbs, hp2, hle2, hlen⟩ := readExact_ok heqex
      split at h
      · rename_i hv
        injection h with h'
        injection h' with h1 h2
        subst h1
        subst h2
        obtain ⟨h16', hb1⟩ := readIntBE_transport (by omega)
          heq16 (fun i hi => ha i (by omega))
        have hash : agreeOn buf buf2 p1 (pos2 + (p1 - pos)) (usizeCast len) := by
          refine agreeOn_shift ha (by omega) (by omega)
        have e1 : p1 - pos = 2 := by omega
        rw [e1] at hash
        have hex' := readExact_transport heqex hash (by omega)
        rw [read_name]
        simp only [readI16, h16', hex', if_pos hv]
        congr 1
        rw [Prod.mk.injEq]
        exact ⟨rfl, by omega⟩
      · exact absurd h (by simp)

/-- Array element loops transported along an agreement window. -/
theorem read_elems_transport {rd : List Nat → Nat → DecodeRes Int} {w : Nat}
    {buf buf2 : List Nat}
    (hrdB : ∀ p x q, rd buf p = .ok (x, q) → q = p + w ∧ p + w ≤ buf.length)
    (hrdT : ∀ p x q p2, rd buf p = .ok (x, q) → agreeOn buf buf2 p p2 w →
      rd buf2 p2 = .ok (x, p2 + w) ∧ p2 + w ≤ buf2.length) :
    ∀ cnt pos pos2 xs p',
      read_elems rd cnt buf pos = .ok (xs, p') →
      agreeOn buf buf2 pos pos2 (p' - pos) →
      read_elems rd cnt buf2 pos2 = .ok (xs, pos2 + (p' - pos)) := by
  intro cnt
  induction cnt with
  | zero =>
    intro pos pos2 xs p' h ha
    rw [read_elems] at h
    injection h with h'
    injection h' with h1 h2
    subst h1
    subst h2
    rw [read_elems, Nat.sub_self, Nat.add_zero]
  | succ cnt ih =>
    intro pos pos2 xs p' h ha
    rw [read_elems] at h
    split at h
    · exact absurd h (by simp)
    · rename_i x p1 heq1
      split at h
      · exact absurd h (by simp)
      · rename_i ys p2 heq2
        injection h with h'
        injection h' with h1 h2
        subst h1
        subst h2
        obtain ⟨hp1, hle1⟩ := hrdB pos x p1 heq1
        obtain ⟨hle2, hor2⟩ := read_elems_bounds hrdB heq2
        obtain ⟨h1', _⟩ := hrdT pos x p1 pos2 heq1 (fun i hi => ha i (by omega))
        have hash : agreeOn buf buf2 p1 (pos2 + (p1 - pos)) (p2 - p1) :=
          agreeOn_shift ha (by omega) (by omega)
        have hrec := ih p1 (pos2 + (p1 - pos)) ys p2 heq2 hash
        have e1 : pos2 + (p1 - pos) = pos2 + w := by omega
        rw [e1] at hrec
        have e2 : pos2 + w + (p2 - p1) = pos2 + (p2 - pos) := by omega
        rw [e2] at hrec
        simp only [read_elems, h1', hrec]

/-- List element loop transported along an agreement window: the
transported children are span-erased-equal. -/
theorem read_list_items_transport {rv rv2 : Nat → List Nat → Nat → DecodeRes NBTValue}
    {buf buf2 : List Nat} (hrvB : RvBounds rv buf) (hrvT : RvTrans rv rv2 buf buf2)
    {tid : Nat} :
    ∀ cnt pos pos2 vs p',
      read_list_items rv tid cnt buf pos = .ok (vs, p') →
      agreeOn buf buf2 pos pos2 (p' - pos) →
      ∃ vs2, read_list_items rv2 tid cnt buf2 pos2 = .ok (vs2, pos2 + (p' - pos))
        ∧ eraseList vs2 = eraseList vs := by
  intro cnt
  induction cnt with
  | zero =>
    intro pos pos2 vs p' h ha
    rw [read_list_items] at h
    injection h with h'
    injection h' with h1 h2
    subst h1
    subst h2
    exact ⟨[], by rw [read_list_items, Nat.sub_self, Nat.add_zero], rfl⟩
  | succ cnt ih =>
    intro pos pos2 vs p' h ha
    rw [read_list_items] at h
    split at h
    · exact absurd h (by simp)
    · rename_i v p1 heq1
      split at h
      · exact absurd h (by simp)
      · rename_i ys p2 heq2
        injection h with h'
        injection h' with h1 h2
        subst h1
        subst h2
        obtain ⟨hle1, hlen1, _, _, _⟩ := hrvB tid pos v p1 heq1
        obtain ⟨hle2, _, _, _, _, _⟩ := read_list_items_spec hrvB heq2
        obtain ⟨w2, h1', hw2⟩ := hrvT tid pos v p1 pos2 heq1 (fun i hi => ha i (by omega))
        have hash : agreeOn buf buf2 p1 (pos2 + (p1 - pos)) (p2 - p1) :=
          agreeOn_shift ha (by omega) (by omega)
        obtain ⟨vs2, hrec, hvs2⟩ := ih p1 (pos2 + (p1 - pos)) ys p2 heq2 hash
        have e2 : pos2 + (p1 - pos) + (p2 - p1) = pos2 + (p2 - pos) := by omega
        rw [e2] at hrec
        refine ⟨w2 :: vs2, ?_, ?_⟩
        · simp only [read_list_items, h1', hrec]
        · rw [eraseList, eraseList, hw2, hvs2]

/-- Span-erased field lists are preserved by inserting span-erased-equal
values under the same key. -/
theorem eraseFields_hmInsert {accA accB : List (List Nat × NBTValue)} {k : List Nat}
    {vA vB : NBTValue}
    (hacc : eraseFields accB = eraseFields accA) (hv : eraseVal vB = eraseVal vA) :
    eraseFields (hmInsert accB k vB) = eraseFields (hmInsert accA k vA) := by
  induction accA generalizing accB with
  | nil =>
    cases accB with
    | nil => rw [hmInsert, hmInsert, eraseFields, eraseFields, eraseFields, eraseFields, hv]
    | cons p accB =>
      obtain ⟨k1, v1⟩ := p
      rw [eraseFields, eraseFields] at hacc
      exact absurd hacc (by simp)
  | cons pA accA ih =>
    obtain ⟨kA, vA'⟩ := pA
    cases accB with
    | nil =>
      rw [eraseFields, eraseFields] at hacc
      exact absurd hacc (by simp)
    | cons pB accB =>
      obtain ⟨kB, vB'⟩ := pB
      rw [eraseFields, eraseFields] at hacc
      injection hacc with h1 h2
      have hk : kB = kA := congrArg Prod.fst h1
      have hve : eraseVal vB' = eraseVal vA' := by
        have := congrArg Prod.snd h1
        simpa using this
      subst hk
      rw [hmInsert, hmInsert]
      by_cases hkk : kB = k
      · rw [if_pos hkk, if_pos hkk, eraseFields, eraseFields, h2, hv]
      · rw [if_neg hkk, if_neg hkk, eraseFields, eraseFields, ih h2]
        rw [List.cons.injEq]
        exact ⟨by rw [hve], rfl⟩

/-- Compound field loop transported along an agreement window, from any
accumulator with the same span-erased fields. -/
theorem read_compound_loop_transport {rv rv2 : Nat → List Nat → Nat → DecodeRes NBTValue}
    {buf buf2 : List Nat} (hrvB : RvBounds rv buf) (hrvT : RvTrans rv rv2 buf buf2)
    {lf : Nat} :
    ∀ accA accB pos pos2 tyA p',
      read_compound_loop rv lf accA buf pos = .ok (tyA, p') →
      agreeOn buf buf2 pos pos2 (p' - pos) →
      eraseFields accB = eraseFields accA →
      ∃ tyB, read_compound_loop rv2 lf accB buf2 pos2 = .ok (tyB, pos2 + (p' - pos))
        ∧ eraseTy tyB = eraseTy tyA := by
  induction lf with
  | zero =>
    intro accA accB pos pos2 tyA p' h ha hacc
    exact absurd h (by rw [read_compound_loop]; simp)
  | succ lf ih =>
    intro accA accB pos pos2 tyA p' h ha hacc
    obtain ⟨hplt, hple, _⟩ := read_compound_loop_spec hrvB h
    rw [read_compound_loop] at h
    split at h
    · exact absurd h (by simp)
    · rename_i b heqb
      have hb2eq : buf2[pos2]? = some b := by
        have h0 := ha 0 (by omega)
        rw [Nat.add_zero, Nat.add_zero] at h0
        rw [h0, heqb]
      split at h
      · rename_i hb0
        injection h with h'
        injection h' with h1 h2
        subst h1
        refine ⟨.Compound accB, ?_, ?_⟩
        · simp only [read_compound_loop, hb2eq, if_pos hb0]
          congr 2
          omega
        · rw [eraseTy, eraseTy, hacc]
      · rename_i hb0
        split at h
        · exact absurd h (by simp)
        · rename_i name p1 heqnm
          split at h
          · exact absurd h (by simp)
          · rename_i child p2 heqc
            obtain ⟨hp1, hp1le, _⟩ := read_name_ok heqnm
            obtain ⟨hcle, hclen, _, _, _⟩ := hrvB _ p1 child p2 heqc
            obtain ⟨hp2lt, _, _⟩ := read_compound_loop_spec hrvB h
            have hashnm : agreeOn buf buf2 (pos + 1) (pos2 + (pos + 1 - pos)) (p1 - (pos + 1)) :=
              agreeOn_shift ha (by omega) (by omega)
            have e0 : pos + 1 - pos = 1 := by omega
            rw [e0] at hashnm
            have hnm' := read_name_transport heqnm hashnm
            have hashc : agreeOn buf buf2 p1 (pos2 + (p1 - pos)) (p2 - p1) :=
              agreeOn_shift ha (by omega) (by omega)
            obtain ⟨w2, hc', hw2⟩ := hrvT _ p1 child p2 (pos2 + (p1 - pos)) heqc hashc
            have hashrec : agreeOn buf buf2 p2 (pos2 + (p2 - pos)) (p' - p2) :=
              agreeOn_shift ha (by omega) (by omega)
            obtain ⟨tyB, hrec, htyB⟩ := ih (hmInsert accA name child) (hmInsert accB name w2)
              p2 (pos2 + (p2 - pos)) tyA p' h hashrec (eraseFields_hmInsert hacc hw2)
            have e1 : pos2 + 1 + (p1 - (pos + 1)) = pos2 + (p1 - pos) := by omega
            rw [e1] at hnm'
            have e2 : pos2 + (p1 - pos) + (p2 - p1) = pos2 + (p2 - pos) := by omega
            rw [e2] at hc'
            have e3 : pos2 + (p2 - pos) + (p' - p2) = pos2 + (p' - pos) := by omega
            rw [e3] at hrec
            refine ⟨tyB, ?_, htyB⟩
            simp only [read_compound_loop, hb2eq, if_neg hb0, hnm', hc', hrec]

/-- `read_ty` transported along an agreement window covering exactly
the consumed bytes: same consumption, span-erased-equal value. -/
theorem read_ty_transport {rv rv2 : Nat → List Nat → Nat → DecodeRes NBTValue}
    {buf buf2 : List Nat} (hrvB : RvBounds rv buf) (hrvT : RvTrans rv rv2 buf buf2)
    {lf t pos : Nat} {ty : ValueType} {p' : Nat} {pos2 : Nat}
    (h : read_ty rv lf t buf pos = .ok (ty, p'))
    (ha : agreeOn buf buf2 pos pos2 (p' - pos)) :
    ∃ ty2, read_ty rv2 lf t buf2 pos2 = .ok (ty2, pos2 + (p' - pos))
      ∧ eraseTy ty2 = eraseTy ty := by
  have hi8B : ∀ p x q, readI8 buf p = .ok (x, q) → q = p + 1 ∧ p + 1 ≤ buf.length :=
    fun p x q hx => readIntBE_ok hx
  have hi32B : ∀ p x q, readI32 buf p = .ok (x, q) → q = p + 4 ∧ p + 4 ≤ buf.length :=
    fun p x q hx => readIntBE_ok hx
  have hi64B : ∀ p x q, readI64 buf p = .ok (x, q) → q = p + 8 ∧ p + 8 ≤ buf.length :=
    fun p x q hx => readIntBE_ok hx
  have hi8T : ∀ p x q p2, readI8 buf p = .ok (x, q) → agreeOn buf buf2 p p2 1 →
      readI8 buf2 p2 = .ok (x, p2 + 1) ∧ p2 + 1 ≤ buf2.length :=
    fun p x q p2 hx hag => readIntBE_transport (by omega) hx hag
  have hi32T : ∀ p x q p2, readI32 buf p = .ok (x, q) → agreeOn buf buf2 p p2 4 →
      readI32 buf2 p2 = .ok (x, p2 + 4) ∧ p2 + 4 ≤ buf2.length :=
    fun p x q p2 hx hag => readIntBE_transport (by omega) hx hag
  have hi64T : ∀ p x q p2, readI64 buf p = .ok (x, q) → agreeOn buf buf2 p p2 8 →
      readI64 buf2 p2 = .ok (x, p2 + 8) ∧ p2 + 8 ≤ buf2.length :=
    fun p x q p2 hx hag => readIntBE_transport (by omega) hx hag
  by_cases ht : t ≤ 12
  · interval_cases t
    · exact absurd h (by simp [read_ty])
    · simp only [read_ty, read_byte] at h ⊢
      split at h
      · rename_i x p1 heq
        injection h with h'
        injection h' with h1 h2
        subst h1
        subst h2
        obtain ⟨hq, _⟩ := readIntBE_ok heq
        obtain ⟨h', _⟩ := hi8T pos x p1 pos2 heq (fun i hi => ha i (by omega))
        refine ⟨.Byte x, ?_, rfl⟩
        simp only [h']
        congr 2
        omega
      · exact absurd h (by simp)
    · simp only [read_ty, read_short] at h ⊢
      split at h
      · rename_i x p1 heq
        injection h with h'
        injection h' with h1 h2
        subst h1
        subst h2
        obtain ⟨hq, _⟩ := readIntBE_ok heq
        obtain ⟨h', _⟩ := readIntBE_transport (show 0 < 2 by omega) heq
          (fun i hi => ha i (by omega))
        refine ⟨.Short x, ?_, rfl⟩
        simp only [readI16] at h' ⊢
        simp only [h']
        congr 2
        omega
      · exact absurd h (by simp)
    · simp only [read_ty, read_int] at h ⊢
      split at h
      · rename_i x p1 heq
        injection h with h'
        injection h' with h1 h2
        subst h1
        subst h2
        obtain ⟨hq, _⟩ := readIntBE_ok heq
        obtain ⟨h', _⟩ := hi32T pos x p1 pos2 heq (fun i hi => ha i (by omega))
        refine ⟨.Int x, ?_, rfl⟩
        simp only [h']
        congr 2
        omega
      · exact absurd h (by simp)
    · simp only [read_ty, read_long] at h ⊢
      split at h
      · rename_i x p1 heq
        injection h with h'
        injection h' with h1 h2
        subst h1
        subst h2
        obtain ⟨hq, _⟩ := readIntBE_ok heq
        obtain ⟨h', _⟩ := hi64T pos x p1 pos2 heq (fun i hi => ha i (by omega))
        refine ⟨.Long x, ?_, rfl⟩
        simp only [h']
        congr 2
        omega
      · exact absurd h (by simp)
    · simp only [read_ty, read_float] at h ⊢
      split at h
      · rename_i x p1 heq
        injection h with h'
        injection h' with h1 h2
        subst h1
        subst h2
        obtain ⟨hq, _, _⟩ := readBE_ok heq
        obtain ⟨h', _⟩ := readBE_transport (show 0 < 4 by omega) heq
          (fun i hi => ha i (by omega))
        refine ⟨.Float x, ?_, rfl⟩
        simp only [h']
        congr 2
        omega
      · exact absurd h (by simp)
    · simp only [read_ty, read_double] at h ⊢
      split at h
      · rename_i x p1 heq
        injection h with h'
        injection h' with h1 h2
        subst h1
        subst h2
        obtain ⟨hq, _, _⟩ := readBE_ok heq
        obtain ⟨h', _⟩ := readBE_transport (show 0 < 8 by omega) heq
          (fun i hi => ha i (by omega))
        refine ⟨.Double x, ?_, rfl⟩
        simp only [h']
        congr 2
        omega
      · exact absurd h (by simp)
    · simp only [read_ty, read_byte_array] at h ⊢
      split at h
      · exact absurd h (by simp)
      · rename_i len p1 heq32
        split at h
        · exact absurd h (by simp)
        · rename_i xs p2 heqel
          injection h with h'
          injection h' with h1 h2
          subst h1
          subst h2
          obtain ⟨hq, _⟩ := readIntBE_ok heq32
          obtain ⟨hle2, hor2⟩ := read_elems_bounds hi8B heqel
          obtain ⟨h32', _⟩ := hi32T pos len p1 pos2 heq32 (fun i hi => ha i (by omega))
          have hashel : agreeOn buf buf2 p1 (pos2 + (p1 - pos)) (p2 - p1) :=
            agreeOn_shift ha (by omega) (by omega)
          have e1 : pos2 + (p1 - pos) = pos2 + 4 := by omega
          rw [e1] at hashel
          have hel' := read_elems_transport hi8B hi8T len.toNat p1 (pos2 + 4) xs p2 heqel hashel
          have e2 : pos2 + 4 + (p2 - p1) = pos2 + (p2 - pos) := by omega
          rw [e2] at hel'
          refine ⟨.ByteArray xs, ?_, rfl⟩
          simp only [h32', hel']
    · simp only [read_ty, read_string] at h ⊢
      split at h
      · exact absurd h (by simp)
      · rename_i len p1 heq16
        split at h
        · exact absurd h (by simp)
        · rename_i bs p2 heqex
          obtain ⟨hq, hle1⟩ := readIntBE_ok heq16
          obtain ⟨hbs, hp2, hle2, hlen⟩ := readExact_ok heqex
          split at h
          · rename_i hv
            injection h with h'
            injection h' with h1 h2
            subst h1
            subst h2
            obtain ⟨h16', hb1⟩ := readIntBE_transport (show 0 < 2 by omega) heq16
              (fun i hi => ha i (by omega))
            have hashex : agreeOn buf buf2 p1 (pos2 + (p1 - pos)) (usizeCast len) :=
              agreeOn_shift ha (by omega) (by omega)
            have e1 : pos2 + (p1 - pos) = pos2 + 2 := by omega
            rw [e1] at hashex
            have hex' := readExact_transport heqex hashex (by omega)
            refine ⟨.String bs, ?_, rfl⟩
            simp only [readI16, h16', hex', if_pos hv]
            congr 2
            omega
          · exact absurd h (by simp)
    · simp only [read_ty, read_list] at h ⊢
      split at h
      · exact absurd h (by simp)
      · rename_i tel p1 heq8
        split at h
        · exact absurd h (by simp)
        · rename_i len p2' heq32
          split at h
          · exact absurd h (by simp)
          · rename_i vs p3 heqit
            injection h with h'
            injection h' with h1 h2
            subst h1
            subst h2
            obtain ⟨hq1, hle1⟩ := readIntBE_ok heq8
            obtain ⟨hq2, hle2⟩ := readIntBE_ok heq32
            obtain ⟨hle3, _, _, _, _, _⟩ := read_list_items_spec hrvB heqit
            obtain ⟨h8', _⟩ := hi8T pos tel p1 pos2 heq8 (fun i hi => ha i (by omega))
            have hash32 : agreeOn buf buf2 p1 (pos2 + (p1 - pos)) 4 :=
              agreeOn_shift ha (by omega) (by omega)
            have e1 : pos2 + (p1 - pos) = pos2 + 1 := by omega
            rw [e1] at hash32
            obtain ⟨h32', _⟩ := hi32T p1 len p2' (pos2 + 1) heq32 hash32
            have hashit : agreeOn buf buf2 p2' (pos2 + (p2' - pos)) (p3 - p2') :=
              agreeOn_shift ha (by omega) (by omega)
            have e2 : pos2 + (p2' - pos) = pos2 + 1 + 4 := by omega
            rw [e2] at hashit
            obtain ⟨vs2, hit', hvs2⟩ := read_list_items_transport hrvB hrvT len.toNat p2'
              (pos2 + 1 + 4) vs p3 heqit hashit
            have e3 : pos2 + 1 + 4 + (p3 - p2') = pos2 + (p3 - pos) := by omega
            rw [e3] at hit'
            refine ⟨.List vs2, ?_, ?_⟩
            · simp only [h8', h32', hit']
            · rw [eraseTy, eraseTy, hvs2]
    · simp only [read_ty, read_compound] at h ⊢
      exact read_compound_loop_transport hrvB hrvT [] [] pos pos2 ty p' h ha rfl
    · simp only [read_ty, read_int_array] at h ⊢
      split at h
      · exact absurd h (by simp)
      · rename_i len p1 heq32
        split at h
        · exact absurd h (by simp)
        · rename_i xs p2 heqel
          injection h with h'
          injection h' with h1 h2
          subst h1
          subst h2
          obtain ⟨hq, _⟩ := readIntBE_ok heq32
          obtain ⟨hle2, hor2⟩ := read_elems_bounds hi32B heqel
          obtain ⟨h32', _⟩ := hi32T pos len p1 pos2 heq32 (fun i hi => ha i (by omega))
          have hashel : agreeOn buf buf2 p1 (pos2 + (p1 - pos)) (p2 - p1) :=
            agreeOn_shift ha (by omega) (by omega)
          have e1 : pos2 + (p1 - pos) = pos2 + 4 := by omega
          rw [e1] at hashel
          have hel' := read_elems_transport hi32B hi32T len.toNat p1 (pos2 + 4) xs p2 heqel hashel
          have e2 : pos2 + 4 + (p2 - p1) = pos2 + (p2 - pos) := by omega
          rw [e2] at hel'
          refine ⟨.IntArray xs, ?_, rfl⟩
          simp only [h32', hel']
    · simp only [read_ty, read_long_array] at h ⊢
      split at h
      · exact absurd h (by simp)
      · rename_i len p1 heq32
        split at h
        · exact absurd h (by simp)
        · rename_i xs p2 heqel
          injection h with h'
          injection h' with h1 h2
          subst h1
          subst h2
          obtain ⟨hq, _⟩ := readIntBE_ok heq32
          obtain ⟨hle2, hor2⟩ := read_elems_bounds hi64B heqel
          obtain ⟨h32', _⟩ := hi32T pos len p1 pos2 heq32 (fun i hi => ha i (by omega))
          have hashel : agreeOn buf buf2 p1 (pos2 + (p1 - pos)) (p2 - p1) :=
            agreeOn_shift ha (by omega) (by omega)
          have e1 : pos2 + (p1 - pos) = pos2 + 4 := by omega
          rw [e1] at hashel
          have hel' := read_elems_transport hi64B hi64T len.toNat p1 (pos2 + 4) xs p2 heqel hashel
          have e2 : pos2 + 4 + (p2 - p1) = pos2 + (p2 - pos) := by omega
          rw [e2] at hel'
          refine ⟨.LongArray xs, ?_, rfl⟩
          simp only [h32', hel']
  · obtain ⟨k, rfl⟩ : ∃ k, t = k + 13 := ⟨t - 13, by omega⟩
    exact absurd h (by simp [read_ty])

/-- `read_value` at any fuel satisfies the transport property between
any two buffers: a successful decode replays at any position of any
buffer carrying the same bytes, consuming the same count and producing
a span-erased-equal tree. -/
theorem read_value_transport (f : Nat) :
    ∀ buf buf2, RvTrans (read_value f) (read_value f) buf buf2 := by
  induction f with
  | zero =>
    intro buf buf2 t p w q p2 h ha
    exact absurd h (by rw [read_value]; simp)
  | succ f ih =>
    intro buf buf2 t p w q p2 h ha
    rw [read_value] at h
    split at h
    · rename_i ty p'' heq
      injection h with h'
      injection h' with h1 h2
      subst h2
      subst h1
      obtain ⟨ty2, heq2, hty2⟩ :=
        read_ty_transport (read_value_spec f buf) (ih buf buf2) heq ha
      refine ⟨.mk p2 (p2 + (p'' - p)) ty2, ?_, ?_⟩
      · simp only [read_value, heq2]
      · rw [eraseVal, eraseVal, hty2]
    · exact absurd h (by simp)

/-! ## Claims about the decoder -/

/-- C4: for every node `n` of a successfully decoded tree, re-decoding
the slice `buf[n.start..n.end]` alone using `n`'s tag kind succeeds,
produces a span-erased-equal value, and consumes exactly
`n.end − n.start` bytes — the whole slice, leaving no trailing
unconsumed bytes. -/
theorem C4_span_redecode (f tid : Nat) (buf : List Nat) (pos : Nat) (v : NBTValue)
    (pend : Nat) (n : NBTValue)
    (hdec : read_value f tid buf pos = .ok (v, pend))
    (hn : n ∈ allNodes v) :
    ((buf.drop n.start).take (n.endPos - n.start)).length = n.endPos - n.start
    ∧ ∃ w, read_value f (tagOf n.ty) ((buf.drop n.start).take (n.endPos - n.start)) 0
        = .ok (w, n.endPos - n.start)
      ∧ eraseVal w = eraseVal n := by
  have hsub := read_value_sub f tid buf pos v pend n hdec hn
  obtain ⟨hle, hlen, _, _, _⟩ := read_value_spec f buf _ _ _ _ hsub
  have hlen_slice :
      ((buf.drop n.start).take (n.endPos - n.start)).length = n.endPos - n.start := by
    simp only [List.length_take, List.length_drop]
    omega
  refine ⟨hlen_slice, ?_⟩
  have hag : agreeOn buf ((buf.drop n.start).take (n.endPos - n.start))
      n.start 0 (n.endPos - n.start) := by
    intro i hi
    rw [Nat.zero_add, List.getElem?_take, if_pos hi, List.getElem?_drop]
  obtain ⟨w, hw, hew⟩ :=
    read_value_transport f buf _ (tagOf n.ty) n.start n n.endPos 0 hsub hag
  rw [Nat.zero_add] at hw
  exact ⟨w, hw, hew⟩

/-- C4 witness: the theorem applied to the Byte field inside the
decoded compound `{ "A": 5b }` (buffer `[1, 0,1, 65, 5, 0]`): the
1-byte slice `[5]` re-decodes as an equal Byte consuming exactly 1
byte. -/
theorem C4_span_redecode_witness :
    (([1, 0, 1, 65, 5, 0].drop (NBTValue.mk 4 5 (.Byte 5)).start).take
        ((NBTValue.mk 4 5 (.Byte 5)).endPos - (NBTValue.mk 4 5 (.Byte 5)).start)).length
      = (NBTValue.mk 4 5 (.Byte 5)).endPos - (NBTValue.mk 4 5 (.Byte 5)).start
    ∧ ∃ w, read_value 10 (tagOf (NBTValue.mk 4 5 (.Byte 5)).ty)
          (([1, 0, 1, 65, 5, 0].drop (NBTValue.mk 4 5 (.Byte 5)).start).take
            ((NBTValue.mk 4 5 (.Byte 5)).endPos - (NBTValue.mk 4 5 (.Byte 5)).start)) 0
        = .ok (w, (NBTValue.mk 4 5 (.Byte 5)).endPos - (NBTValue.mk 4 5 (.Byte 5)).start)
      ∧ eraseVal w = eraseVal (NBTValue.mk 4 5 (.Byte 5)) :=
  C4_span_redecode 10 10 [1, 0, 1, 65, 5, 0] 0
    (.mk 0 6 (.Compound [([65], .mk 4 5 (.Byte 5))])) 6 (.mk 4 5 (.Byte 5))
    (by rfl) (by simp [allNodes, allNodesTy, allNodesFields])

/-- C6: every field of a decoded Compound has a span that covers exactly
its payload: in the buffer, a nonzero tag-id byte sits at some position
`p`, the length-prefixed name occupies the following `2 + |k|` bytes,
and the field node's span starts only after them (at `p + 3 + |k|`) and
ends where its payload decode ends. -/
theorem C6_field_span (f : Nat) (buf : List Nat) (pos pend : Nat) (v : NBTValue)
    (fields : List (List Nat × NBTValue)) (k : List Nat) (n : NBTValue)
    (hdec : read_value f 10 buf pos = .ok (v, pend))
    (hty : v.ty = ValueType.Compound fields)
    (hmem : (k, n) ∈ fields) :
    ∃ p b, buf[p]? = some b ∧ b ≠ 0
      ∧ usizeCast (toSigned 8 b) = tagOf n.ty
      ∧ read_name buf (p + 1) = .ok (k, n.start)
      ∧ n.start = p + 1 + 2 + k.length
      ∧ read_value f (tagOf n.ty) buf n.start = .ok (n, n.endPos) := by
  cases f with
  | zero => exact absurd hdec (by rw [read_value]; simp)
  | succ f =>
    rw [read_value] at hdec
    split at hdec
    · rename_i ty p2 heq
      injection hdec with h'
      injection h' with h1 h2
      subst h2
      subst h1
      rw [NBTValue.ty] at hty
      subst hty
      simp only [read_ty, read_compound] at heq
      obtain ⟨_, _, fields', hf, hmem'⟩ :=
        read_compound_loop_spec (read_value_spec f buf) heq
      injection hf with hf'
      subst hf'
      rcases hmem' k n hmem with hacc | ⟨p, b, hb, hb0, hple, hnm, htg, hre⟩
      · exact absurd hacc (List.not_mem_nil _)
      · obtain ⟨hp1, _, _⟩ := read_name_ok hnm
        refine ⟨p, b, hb, hb0, htg, hnm, by omega, ?_⟩
        exact read_value_mono f (f + 1) (by omega) _ buf n.start (n, n.endPos) hre
    · exact absurd hdec (by simp)

/-- C6 witness: the theorem applied to the compound `{ "A": 5b }`
(buffer `[1, 0,1, 65, 5, 0]`): the field's span `[4, 5)` excludes the
tag-id byte at 0 and the name bytes at 1..3. -/
theorem C6_field_span_witness :
    ∃ p b, [1, 0, 1, 65, 5, 0][p]? = some b ∧ b ≠ 0
      ∧ usizeCast (toSigned 8 b) = tagOf (NBTValue.mk 4 5 (.Byte 5)).ty
      ∧ read_name [1, 0, 1, 65, 5, 0] (p + 1) = .ok ([65], (NBTValue.mk 4 5 (.Byte 5)).start)
      ∧ (NBTValue.mk 4 5 (.Byte 5)).start = p + 1 + 2 + [65].length
      ∧ read_value 10 (tagOf (NBTValue.mk 4 5 (.Byte 5)).ty) [1, 0, 1, 65, 5, 0]
          (NBTValue.mk 4 5 (.Byte 5)).start
        = .ok (NBTValue.mk 4 5 (.Byte 5), (NBTValue.mk 4 5 (.Byte 5)).endPos) :=
  C6_field_span 10 [1, 0, 1, 65, 5, 0] 0 6
    (.mk 0 6 (.Compound [([65], .mk 4 5 (.Byte 5))]))
    [([65], .mk 4 5 (.Byte 5))] [65] (.mk 4 5 (.Byte 5))
    (by rfl) (by rfl) (List.mem_singleton.mpr rfl)

/-- C10: the children of a successfully decoded List are pairwise
contiguous (each child starts where the previous one ends), every
child's span lies inside the List node's span, and the first child
starts exactly 5 bytes after the List's own start (the 1-byte element
kind plus the 4-byte count, which the List's span also covers). -/
theorem C10_list_spans (f tid : Nat) (buf : List Nat) (pos pend : Nat) (v : NBTValue)
    (items : List NBTValue)
    (hdec : read_value f tid buf pos = .ok (v, pend))
    (hty : v.ty = ValueType.List items) :
    List.Chain' (fun a b => b.start = a.endPos) items
    ∧ (∀ c ∈ items, v.start ≤ c.start ∧ c.endPos ≤ v.endPos)
    ∧ (∀ c, items.head? = some c → c.start = v.start + 5) := by
  cases f with
  | zero => exact absurd hdec (by rw [read_value]; simp)
  | succ f =>
    rw [read_value] at hdec
    split at hdec
    · rename_i ty p2 heq
      injection hdec with h'
      injection h' with h1 h2
      subst h2
      subst h1
      rw [NBTValue.ty] at hty
      subst hty
      obtain ⟨hle0, hlen0, htag⟩ := read_ty_ok_facts (read_value_spec f buf) heq
      rw [tagOf] at htag
      subst htag
      simp only [read_ty, read_list] at heq
      split at heq
      · exact absurd heq (by simp)
      · rename_i tel p1 heq8
        split at heq
        · exact absurd heq (by simp)
        · rename_i len p2' heq32
          split at heq
          · exact absurd heq (by simp)
          · rename_i vs p3 heqit
            injection heq with heq'
            injection heq' with hty' hp3
            injection hty' with hvs
            subst hvs
            obtain ⟨hq1, hle1⟩ := readIntBE_ok heq8
            obtain ⟨hq2, hle2⟩ := readIntBE_ok heq32
            obtain ⟨hles, _, hchain, hmem, hhead, _⟩ :=
              read_list_items_spec (read_value_spec f buf) heqit
            refine ⟨hchain, ?_, ?_⟩
            · intro c hc
              obtain ⟨h1, h2, _, _⟩ := hmem c hc
              simp only [NBTValue.start, NBTValue.endPos] at h1 h2 ⊢
              omega
            · intro c hc
              have hh := hhead c hc
              simp only [NBTValue.start] at hh ⊢
              omega
    · exact absurd hdec (by simp)

/-- C10 witness: the theorem applied to the list `[7b, 8b]`
(buffer `[1, 0,0,0,2, 7, 8]`). -/
theorem C10_list_spans_witness :
    List.Chain' (fun a b => b.start = a.endPos) [NBTValue.mk 5 6 (.Byte 7), NBTValue.mk 6 7 (.Byte 8)]
    ∧ (∀ c ∈ [NBTValue.mk 5 6 (.Byte 7), NBTValue.mk 6 7 (.Byte 8)],
        (NBTValue.mk 0 7 (.List [NBTValue.mk 5 6 (.Byte 7), NBTValue.mk 6 7 (.Byte 8)])).start ≤ c.start
        ∧ c.endPos ≤ (NBTValue.mk 0 7 (.List [NBTValue.mk 5 6 (.Byte 7), NBTValue.mk 6 7 (.Byte 8)])).endPos)
    ∧ (∀ c, [NBTValue.mk 5 6 (.Byte 7), NBTValue.mk 6 7 (.Byte 8)].head? = some c →
        c.start = (NBTValue.mk 0 7 (.List [NBTValue.mk 5 6 (.Byte 7), NBTValue.mk 6 7 (.Byte 8)])).start + 5) :=
  C10_list_spans 10 9 [1, 0, 0, 0, 2, 7, 8] 0 7
    (.mk 0 7 (.List [.mk 5 6 (.Byte 7), .mk 6 7 (.Byte 8)]))
    [.mk 5 6 (.Byte 7), .mk 6 7 (.Byte 8)] (by rfl) (by rfl)

/-- C2 counterexample: the 1-byte tag-kind-id read inside a Compound,
on an exhausted buffer, does *not* return an `UnexpectedEnd` error
result: `read_i8().unwrap()` panics (modelled by `.abort .unwrapNone`),
so the failure is surfaced by a panic, not an error result. -/
theorem C2_unexpected_end_counterexample :
    read_value 10 10 [] 0 = .error (.abort .unwrapNone)
    ∧ read_value 10 10 [] 0 ≠ .error .unexpectedEnd := by
  refine ⟨rfl, ?_⟩
  intro h
  rw [show read_value 10 10 ([] : List Nat) 0 = .error (.abort .unwrapNone) from rfl] at h
  injection h with h'
  exact absurd h' (by simp)

/-- C2 amended: every fixed-width or length-prefixed read (they all go
through `readExact`) yields `UnexpectedEnd` as an error result when the
buffer is exhausted before it completes — in particular a buffer
truncated mid-way through a declared Long payload — with one exception:
the 1-byte tag-kind-id read inside a Compound uses `unwrap()` and
panics on an exhausted buffer instead of returning an error result. -/
theorem C2_unexpected_end_amended :
    (∀ n buf pos, buf.length < pos + n →
      readExact n buf pos = .error .unexpectedEnd)
    ∧ (∀ f buf pos, 1 ≤ f → buf.length < pos + 8 →
      read_value f 4 buf pos = .error .unexpectedEnd)
    ∧ (∀ f buf pos, 2 ≤ f → buf.length ≤ pos →
      read_value f 10 buf pos = .error (.abort .unwrapNone)) := by
  refine ⟨?_, ?_, ?_⟩
  · intro n buf pos hlen
    rw [readExact, if_neg (by omega)]
  · intro f buf pos hf hlen
    obtain ⟨g, rfl⟩ : ∃ g, f = g + 1 := ⟨f - 1, by omega⟩
    simp only [read_value, read_ty, read_long, readI64, readIntBE, readBE, readExact]
    rw [if_neg (by omega)]
  · intro f buf pos hf hlen
    obtain ⟨g, rfl⟩ : ∃ g, f = g + 2 := ⟨f - 2, by omega⟩
    have hnone : buf[pos]? = none := List.getElem?_eq_none hlen
    simp only [read_value, read_ty, read_compound, read_compound_loop, hnone]

/-- C2 witness: the amended theorem applied to a 3-byte buffer read as
a Long (truncated payload) and to the empty buffer read as a Compound. -/
theorem C2_unexpected_end_witness :
    readExact 4 [1, 2] 0 = .error .unexpectedEnd
    ∧ read_value 1 4 [1, 2, 3] 0 = .error .unexpectedEnd
    ∧ read_value 2 10 [] 0 = .error (.abort .unwrapNone) :=
  ⟨C2_unexpected_end_amended.1 4 [1, 2] 0 (by simp),
   C2_unexpected_end_amended.2.1 1 [1, 2, 3] 0 (by omega) (by simp),
   C2_unexpected_end_amended.2.2 2 [] 0 (by omega) (by simp)⟩

/-- C3 counterexample: dispatching a decode for the out-of-range
tag-kind id 13 — produced here by a List's element-kind byte — does
*not* return an `UnknownTagKind` (or any) error result: the
`READ_FNS[type_id]` slice access panics with index out of bounds
(modelled by `.abort .indexOutOfBounds`). -/
theorem C3_unknown_tag_counterexample :
    read_value 10 9 [13, 0, 0, 0, 1, 0] 0 = .error (.abort .indexOutOfBounds) := rfl

/-- C3 amended: dispatching any tag-kind id outside 0..12 panics with
an index-out-of-bounds slice access (a process abort), rather than
returning an `UnknownTagKind` error result; no such error value exists
in the code. -/
theorem C3_unknown_tag_amended (f tid : Nat) (buf : List Nat) (pos : Nat)
    (hf : 1 ≤ f) (ht : 13 ≤ tid) :
    read_value f tid buf pos = .error (.abort .indexOutOfBounds) := by
  obtain ⟨g, rfl⟩ : ∃ g, f = g + 1 := ⟨f - 1, by omega⟩
  obtain ⟨k, rfl⟩ : ∃ k, tid = k + 13 := ⟨tid - 13, by omega⟩
  simp [read_value, read_ty]

/-- C3 witness: the amended theorem applied to id 13 on the empty
buffer. -/
theorem C3_unknown_tag_witness :
    read_value 1 13 [] 0 = .error (.abort .indexOutOfBounds) :=
  C3_unknown_tag_amended 1 13 [] 0 (by omega) (by omega)

/-- C7: the kind-0 reader *is* reachable, contradicting the
`unreachable!` assertion in `read_zero`: a List declaring element kind
0 with count 1 dispatches kind 0 and panics
("Tried to read value with type id 0", modelled by
`.abort .unreachableZero`).  With count 0 the element-kind byte is
consumed but never dereferenced, and decoding succeeds. -/
theorem C7_zero_dispatch_bug :
    read_value 10 9 [0, 0, 0, 0, 1] 0 = .error (.abort .unreachableZero)
    ∧ read_value 10 9 [0, 0, 0, 0, 0] 0 = .ok (.mk 0 5 (.List []), 5) :=
  ⟨rfl, rfl⟩

/-- C8 counterexample: a byte-array whose 4-byte count decodes as `-1`
(bytes `FF FF FF FF`) does *not* fail with a `NegativeLength` (or any)
error: decoding succeeds with an empty array, consuming only the count. -/
theorem C8_negative_length_counterexample :
    read_value 10 7 [255, 255, 255, 255] 0 = .ok (.mk 0 4 (.ByteArray []), 4) := rfl

/-- C8 amended: for byte-array, int-array, and long-array payloads, a
negative element count is not treated as an error and is not
reinterpreted as unsigned: `for _ in 0..length` iterates zero times, so
decoding succeeds with an empty array, consuming only the 4-byte
count. -/
theorem C8_negative_length_amended (f : Nat) (buf : List Nat) (pos : Nat)
    (len : Int) (p1 : Nat)
    (hf : 1 ≤ f) (hlen : readI32 buf pos = .ok (len, p1)) (hneg : len < 0) :
    read_value f 7 buf pos = .ok (.mk pos p1 (.ByteArray []), p1)
    ∧ read_value f 11 buf pos = .ok (.mk pos p1 (.IntArray []), p1)
    ∧ read_value f 12 buf pos = .ok (.mk pos p1 (.LongArray []), p1) := by
  obtain ⟨g, rfl⟩ : ∃ g, f = g + 1 := ⟨f - 1, by omega⟩
  have h0 : len.toNat = 0 := Int.toNat_of_nonpos (by omega)
  refine ⟨?_, ?_, ?_⟩
  · simp only [read_value, read_ty, read_byte_array, hlen, h0, read_elems]
  · simp only [read_value, read_ty, read_int_array, hlen, h0, read_elems]
  · simp only [read_value, read_ty, read_long_array, hlen, h0, read_elems]

/-- C8 witness: the amended theorem applied to the buffer
`[255, 255, 255, 255]`, whose count decodes as `-1`. -/
theorem C8_negative_length_witness :
    read_value 1 7 [255, 255, 255, 255] 0 = .ok (.mk 0 4 (.ByteArray []), 4)
    ∧ read_value 1 11 [255, 255, 255, 255] 0 = .ok (.mk 0 4 (.IntArray []), 4)
    ∧ read_value 1 12 [255, 255, 255, 255] 0 = .ok (.mk 0 4 (.LongArray []), 4) :=
  C8_negative_length_amended 1 [255, 255, 255, 255] 0 (-1) 4 (by omega) (by rfl)
    (by omega)
